import Mathlib

/-!
Verification development for the `ub::BuddyAllocator<MAX_POWER, ALIGNMENT>`
C++ class template (file `include/BuddyAllocator.h`).

The allocator is embedded shallowly:

* Pointers into the managed buffer `m_buffer` are represented by their byte
  offset from `&m_buffer[0]` (a `Nat`).  The spec calls this offset-0 address
  `base`.
* `m_freelists` is modelled as a function `Nat → List Nat`: the list held at
  argument `k` is the free list the C++ code keeps in `m_freelists[k - MIN_ORDER]`
  (a head pointer plus `next` pointers stored in the first bytes of each free
  block).  Indices outside `[MIN_ORDER, MAX_ORDER]` are never accessed by the
  translated operations on valid inputs.
* The order bytes (`*(block - 1) = order` in `alloc`, read back in `free`) are
  modelled as a map `orders : Nat → Nat`, keyed by the block offset `block`;
  entry `block` stands for the byte at address `block - 1`, which for
  `block = 0` is the dedicated pad byte `m_dummy`.
* The template parameter `MAX_POWER` (= `MAX_ORDER`) is an explicit argument
  `M` of every operation.  `uint32_t` arithmetic on `size + 1` is modelled by
  reduction mod `2 ^ 32`; shifts `1U << k` appear as `2 ^ k`, exact for the
  orders `k ≤ 31` that a well-formed instantiation (`MAX_POWER ≤ 31`) can
  produce.
-/

namespace ub

/-- Loop body of `BuddyAllocator::log2`: starting from candidate result `r`,
keep incrementing while `1 << r` is below `size`.  The C++ loop carries no
fuel; here one unit of `fuel` is spent per iteration, and fuel `33` (used by
`log2` below) already covers every `uint32_t` argument, since the loop stops
at `r = 32` at the latest for `size ≤ 2 ^ 32`. -/
def log2Go (size : Nat) : Nat → Nat → Nat
  | r, 0 => r
  | r, fuel + 1 => if 2 ^ r < size then log2Go size (r + 1) fuel else r

/-- `BuddyAllocator::log2 size`: the exponent of the smallest power of two
that is at least `size` (ceiling base-2 logarithm). -/
def log2 (size : Nat) : Nat := log2Go size 0 33

/-- The value of `sizeof(void*)` on the 64-bit target that the spec and the
test file assume. -/
def PTR_SIZE : Nat := 8

/-- `BuddyAllocator::MIN_ORDER = log2(sizeof(void*) + 1)`: the smallest block
order, 4 on the 64-bit target. -/
def MIN_ORDER : Nat := log2 (PTR_SIZE + 1)

/-- The mutable state of a `ub::BuddyAllocator` instance: the per-order free
lists (`m_freelists` together with the `next` links stored inside free
blocks), and the order bytes stashed in the buffer (`orders p` is the byte at
address `p - 1`, i.e. `m_dummy` for `p = 0`). -/
structure BuddyAllocator where
  freelists : Nat → List Nat
  orders : Nat → Nat

/-- The constructor `BuddyAllocator()`: all free lists empty except the top
one, which holds the single block `&m_buffer[0]` (offset 0); the buffer and
`m_dummy` are zero-initialised. -/
def fresh (M : Nat) : BuddyAllocator where
  freelists := fun k => if k = M then [0] else []
  orders := fun _ => 0

/-- `BuddyAllocator::buddy_of(ptr, order) = base + ((ptr - base) ^ (1 << order))`,
in offset form: flip bit `order` of the offset. -/
def buddy_of (ptr order : Nat) : Nat := ptr ^^^ 2 ^ order

/-- Write a single free-list entry of the `m_freelists` array. -/
def setList (fl : Nat → List Nat) (k : Nat) (l : List Nat) : Nat → List Nat :=
  fun j => if j = k then l else fl j

/-- The search loop of `alloc`: starting at `index`, walk upward while the
list head at `index` is null and `index < MAX_ORDER`; return the first index
with a non-null head together with that head.  One unit of fuel per examined
index; `alloc` passes `M + 1 - order`, enough to reach `M`. -/
def findFrom (M : Nat) (fl : Nat → List Nat) : Nat → Nat → Option (Nat × Nat)
  | 0, _ => none
  | fuel + 1, index =>
    match fl index with
    | b :: _ => some (index, b)
    | [] => if index < M then findFrom M fl fuel (index + 1) else none

/-- The split loop of `alloc`: while `index > order`, decrement `index`, push
the buddy of `block` at the decremented `index` (the upper half of the current
region) onto free list `index`, and continue with the lower half. -/
def splitLoop (block order : Nat) : Nat → (Nat → List Nat) → (Nat → List Nat)
  | 0, fl => fl
  | index + 1, fl =>
    if order < index + 1 then
      splitLoop block order index
        (setList fl index (buddy_of block index :: fl index))
    else fl

/-- `BuddyAllocator::alloc(size)`.  Computes
`order = max(MIN_ORDER, log2(size + 1))` — with the `uint32_t` wraparound of
`size + 1` — rejects `size == 0` and `order > MAX_ORDER`, finds the first
non-empty free list at `order` or above, pops its head, splits it down to
`order` (keeping the lower half), records `order` in the byte preceding the
block and returns the block (`none` models `nullptr`). -/
def alloc (M : Nat) (a : BuddyAllocator) (size : Nat) : Option Nat × BuddyAllocator :=
  let order := max MIN_ORDER (log2 ((size + 1) % 2 ^ 32))
  if size = 0 ∨ M < order then (none, a)
  else
    match findFrom M a.freelists (M + 1 - order) order with
    | none => (none, a)
    | some (index, block) =>
      let fl' := setList a.freelists index (a.freelists index).tail
      let fl'' := splitLoop block order index fl'
      (some block,
       { freelists := fl'',
         orders := fun x => if x = block then order else a.orders x })

/-- The `while (true)` coalescing loop of `BuddyAllocator::free`: look for the
buddy of `block` in free list `order`; if absent, push `block` there and stop;
if present, unlink its first occurrence, take the lower of the two addresses
and retry one order higher.  The C++ loop carries no fuel; `none` models a
run that would need more iterations than the supplied fuel (never reached
from valid states, as proved below). -/
def freeLoop : Nat → Nat → (Nat → List Nat) → Nat → Option (Nat → List Nat)
  | _, _, _, 0 => none
  | block, order, fl, fuel + 1 =>
    let buddy := buddy_of block order
    if buddy ∈ fl order then
      freeLoop (min block buddy) (order + 1)
        (setList fl order ((fl order).erase buddy)) fuel
    else
      some (setList fl order (block :: fl order))

/-- `BuddyAllocator::free(pointer)`: a null pointer is a no-op; otherwise read
the order byte stored at `pointer - 1` and run the coalescing loop.  Fuel
`M + 2 - order` strictly exceeds the `M + 1 - order` loop executions possible
from any valid state. -/
def free (M : Nat) (a : BuddyAllocator) (p : Option Nat) : Option BuddyAllocator :=
  match p with
  | none => some a
  | some block =>
    let order := a.orders block
    match freeLoop block order a.freelists (M + 2 - order) with
    | none => none
    | some fl' => some { a with freelists := fl' }

/-- Repeatedly call `alloc M · size` (the test-suite exhaustion loop) and
count the successful allocations before the first null return, up to `fuel`
calls. -/
def allocCount (M size : Nat) : Nat → BuddyAllocator → Nat
  | 0, _ => 0
  | fuel + 1, a =>
    match alloc M a size with
    | (some _, a') => allocCount M size fuel a' + 1
    | (none, _) => 0

/-! ### Properties of `log2` -/

theorem log2Go_le {size k : Nat} (h : size ≤ 2 ^ k) :
    ∀ fuel r, r ≤ k → log2Go size r fuel ≤ k := by
  intro fuel
  induction fuel with
  | zero => intro r hrk; exact hrk
  | succ fuel ih =>
    intro r hrk
    simp only [log2Go]
    split
    · apply ih
      have h1 : 2 ^ r < 2 ^ k := lt_of_lt_of_le (by assumption) h
      have h2 := (Nat.pow_lt_pow_iff_right (by norm_num : 1 < 2)).1 h1
      omega
    · exact hrk

theorem le_two_pow_log2Go {size : Nat} :
    ∀ fuel r, size ≤ 2 ^ (r + fuel) → size ≤ 2 ^ log2Go size r fuel := by
  intro fuel
  induction fuel with
  | zero => intro r h; simpa [log2Go] using h
  | succ fuel ih =>
    intro r h
    simp only [log2Go]
    split
    · exact ih (r + 1) (by rw [show r + 1 + fuel = r + (fuel + 1) by omega]; exact h)
    · exact Nat.le_of_not_lt (by assumption)

theorem log2_le {size k : Nat} (h : size ≤ 2 ^ k) : log2 size ≤ k :=
  log2Go_le h 33 0 (Nat.zero_le k)

theorem le_two_pow_log2 {size : Nat} (h : size ≤ 2 ^ 33) : size ≤ 2 ^ log2 size :=
  le_two_pow_log2Go 33 0 h

theorem log2_le_iff {size k : Nat} (hs : size ≤ 2 ^ 33) : log2 size ≤ k ↔ size ≤ 2 ^ k :=
  ⟨fun h => le_trans (le_two_pow_log2 hs) (Nat.pow_le_pow_right (by norm_num) h), log2_le⟩

theorem log2_two_pow {k : Nat} (hk : k ≤ 33) : log2 (2 ^ k) = k :=
  le_antisymm (log2_le le_rfl)
    ((Nat.pow_le_pow_iff_right (by norm_num : 1 < 2)).1
      (le_two_pow_log2 (Nat.pow_le_pow_right (by norm_num) hk)))

/-! ### Arithmetic facts about the XOR buddy computation -/

theorem xor_two_pow_of_dvd {a i : Nat} (h : 2 ^ (i + 1) ∣ a) :
    a ^^^ 2 ^ i = a + 2 ^ i := by
  obtain ⟨q, rfl⟩ := h
  apply Nat.eq_of_testBit_eq
  intro j
  have hlt : (2 : Nat) ^ i < 2 ^ (i + 1) := Nat.pow_lt_pow_succ (by norm_num)
  rw [Nat.testBit_xor, Nat.testBit_mul_pow_two_add q hlt j, Nat.testBit_mul_pow_two]
  by_cases hj : j < i + 1
  · simp [hj, show ¬ i + 1 ≤ j by omega]
  · have hij : i ≠ j := by omega
    simp [hj, show i + 1 ≤ j by omega, Nat.testBit_two_pow_of_ne hij]

theorem xor_two_pow_self_inv (a i : Nat) : a ^^^ 2 ^ i ^^^ 2 ^ i = a := by
  rw [Nat.xor_assoc, Nat.xor_self, Nat.xor_zero]

theorem xor_two_pow_sub {a i : Nat} (h : 2 ^ (i + 1) ∣ a - 2 ^ i) (h2 : 2 ^ i ≤ a) :
    a ^^^ 2 ^ i = a - 2 ^ i := by
  have hx := xor_two_pow_of_dvd h
  rw [Nat.sub_add_cancel h2] at hx
  calc a ^^^ 2 ^ i = ((a - 2 ^ i) ^^^ 2 ^ i) ^^^ 2 ^ i := by rw [hx]
  _ = a - 2 ^ i := xor_two_pow_self_inv _ _

theorem xor_two_pow_cases {a i : Nat} (h : 2 ^ i ∣ a) :
    (2 ^ (i + 1) ∣ a ∧ a ^^^ 2 ^ i = a + 2 ^ i) ∨
    (2 ^ i ≤ a ∧ 2 ^ (i + 1) ∣ a - 2 ^ i ∧ a ^^^ 2 ^ i = a - 2 ^ i) := by
  obtain ⟨q, rfl⟩ := h
  rcases Nat.even_or_odd q with he | ho
  · obtain ⟨q', rfl⟩ := he
    left
    have hd : 2 ^ (i + 1) ∣ 2 ^ i * (q' + q') := ⟨q', by ring⟩
    exact ⟨hd, xor_two_pow_of_dvd hd⟩
  · obtain ⟨q', rfl⟩ := ho
    right
    have ha : 2 ^ i * (2 * q' + 1) = 2 ^ (i + 1) * q' + 2 ^ i := by ring
    have hle : 2 ^ i ≤ 2 ^ i * (2 * q' + 1) := by rw [ha]; omega
    have hd : 2 ^ (i + 1) ∣ 2 ^ i * (2 * q' + 1) - 2 ^ i := ⟨q', by rw [ha]; omega⟩
    exact ⟨hle, hd, xor_two_pow_sub hd hle⟩

theorem buddy_merge {a i : Nat} (h : 2 ^ i ∣ a) :
    2 ^ (i + 1) ∣ min a (a ^^^ 2 ^ i) ∧
    max a (a ^^^ 2 ^ i) = min a (a ^^^ 2 ^ i) + 2 ^ i := by
  rcases xor_two_pow_cases h with ⟨hd, hx⟩ | ⟨hle, hd, hx⟩
  · rw [hx, min_eq_left (Nat.le_add_right _ _), max_eq_right (Nat.le_add_right _ _)]
    exact ⟨hd, rfl⟩
  · rw [hx, min_eq_right (Nat.sub_le _ _), max_eq_left (Nat.sub_le _ _),
      Nat.sub_add_cancel hle]
    exact ⟨hd, rfl⟩

theorem buddy_add {b i j : Nat} (hij : i < j) (hb : 2 ^ j ∣ b) :
    b ^^^ 2 ^ i = b + 2 ^ i :=
  xor_two_pow_of_dvd (dvd_trans (pow_dvd_pow 2 hij) hb)

theorem xor_two_pow_ne {a i : Nat} : a ^^^ 2 ^ i ≠ a := by
  intro h
  have h2 : (2 : Nat) ^ i = a ^^^ (a ^^^ 2 ^ i) := by
    rw [← Nat.xor_assoc, Nat.xor_self, Nat.zero_xor]
  rw [h, Nat.xor_self] at h2
  exact absurd h2 (Nat.pos_iff_ne_zero.1 (Nat.pos_pow_of_pos i (by norm_num)))

/-! ### Blocks, disjointness, and the global invariant

A block is a pair `(offset, order)` describing the byte range
`[offset, offset + 2 ^ order)` of the managed buffer. -/

/-- Two blocks occupy disjoint byte ranges. -/
def blockDisj (p q : Nat × Nat) : Prop :=
  p.1 + 2 ^ p.2 ≤ q.1 ∨ q.1 + 2 ^ q.2 ≤ p.1

/-- Every block currently on some free list, tagged with the order of the
list holding it. -/
def freeBlocksList (M : Nat) (fl : Nat → List Nat) : List (Nat × Nat) :=
  (List.range (M + 1)).flatMap fun k => (fl k).map fun b => (b, k)

/-- The blocks of the ghost list of live allocations (pointer, request size):
each carries its pointer and the order recorded in its order byte. -/
def liveBlocks (ords : Nat → Nat) (live : List (Nat × Nat)) : List (Nat × Nat) :=
  live.map fun q => (q.1, ords q.1)

/-- Total byte size of a list of blocks. -/
def sumSizes (bs : List (Nat × Nat)) : Nat := (bs.map fun p => 2 ^ p.2).sum

/-- The free-list part of the global invariant, relative to an arbitrary
list `rest` of blocks not on the free lists (the live blocks, possibly
together with a pending block being carved or coalesced): free lists only
hold orders in `[MIN_ORDER, M]`, all free blocks are in range and aligned,
the free blocks together with `rest` tile the buffer (pairwise disjoint
ranges with total size `2 ^ M`), and no block sits on the same free list as
its buddy. -/
structure FLInv (M : Nat) (fl : Nat → List Nat) (rest : List (Nat × Nat)) : Prop where
  range : ∀ k, fl k ≠ [] → MIN_ORDER ≤ k ∧ k ≤ M
  bounds : ∀ k b, b ∈ fl k → b + 2 ^ k ≤ 2 ^ M ∧ 2 ^ k ∣ b
  disj : List.Pairwise blockDisj (freeBlocksList M fl ++ rest)
  tiles : sumSizes (freeBlocksList M fl ++ rest) = 2 ^ M
  noPair : ∀ k b, b ∈ fl k → buddy_of b k ∉ fl k

/-- The global invariant tying an allocator state to the ghost list `live` of
outstanding allocations: the free-list invariant relative to the live
blocks, plus bounds on each live entry's recorded order and request size. -/
structure Inv (M : Nat) (a : BuddyAllocator) (live : List (Nat × Nat)) : Prop where
  fli : FLInv M a.freelists (liveBlocks a.orders live)
  liveBounds : ∀ q ∈ live, MIN_ORDER ≤ a.orders q.1 ∧ a.orders q.1 ≤ M ∧
    q.1 + 2 ^ a.orders q.1 ≤ 2 ^ M ∧ 2 ^ a.orders q.1 ∣ q.1 ∧ 1 ≤ q.2 ∧
    (q.2 + 1 < 2 ^ 32 → q.2 + 1 ≤ 2 ^ a.orders q.1)

/-- The states reachable from a freshly constructed allocator by `alloc`
calls that succeed (with any `uint32_t` size) and `free` calls on valid
pointers (pointers previously returned by `alloc` and not since released).
The ghost list `live` records the outstanding allocations with their
request sizes, most recent first. -/
inductive Reach (M : Nat) : BuddyAllocator → List (Nat × Nat) → Prop
  | init : Reach M (fresh M) []
  | allocStep {a live size p a'} : Reach M a live → size < 2 ^ 32 →
      alloc M a size = (some p, a') → Reach M a' ((p, size) :: live)
  | freeStep {a l₁ l₂ p s a'} : Reach M a (l₁ ++ (p, s) :: l₂) →
      free M a (some p) = some a' → Reach M a' (l₁ ++ l₂)

/-! ### Plumbing lemmas for block lists -/

theorem blockDisj_symm : ∀ {p q : Nat × Nat}, blockDisj p q → blockDisj q p := by
  intro p q h
  rcases h with h | h
  · exact Or.inr h
  · exact Or.inl h

theorem blockDisj_symmetric : Symmetric blockDisj := by
  intro p q h
  exact blockDisj_symm h

theorem sumSizes_append (bs cs : List (Nat × Nat)) :
    sumSizes (bs ++ cs) = sumSizes bs + sumSizes cs := by
  simp [sumSizes]

theorem sumSizes_cons (p : Nat × Nat) (bs : List (Nat × Nat)) :
    sumSizes (p :: bs) = 2 ^ p.2 + sumSizes bs := by
  simp [sumSizes]

theorem sumSizes_perm {bs cs : List (Nat × Nat)} (h : bs.Perm cs) :
    sumSizes bs = sumSizes cs :=
  (h.map _).sum_eq

theorem mem_freeBlocksList {M : Nat} {fl : Nat → List Nat} {p : Nat × Nat} :
    p ∈ freeBlocksList M fl ↔ p.2 ≤ M ∧ p.1 ∈ fl p.2 := by
  constructor
  · intro h
    simp only [freeBlocksList, List.mem_flatMap, List.mem_map, List.mem_range] at h
    obtain ⟨k, hk, b, hb, rfl⟩ := h
    exact ⟨by omega, hb⟩
  · intro ⟨h1, h2⟩
    simp only [freeBlocksList, List.mem_flatMap, List.mem_map, List.mem_range]
    exact ⟨p.2, by omega, p.1, h2, rfl⟩

theorem flatMap_eq_of_ne {α : Type} {k : Nat} (f g : Nat → List α) :
    ∀ l : List Nat, k ∉ l → (∀ j, j ≠ k → f j = g j) → l.flatMap f = l.flatMap g := by
  intro l
  induction l with
  | nil => intro _ _; rfl
  | cons x xs ih =>
    intro hk hfg
    have hxk : x ≠ k := fun h => hk (h ▸ List.mem_cons_self x xs)
    simp only [List.flatMap_cons]
    rw [hfg x hxk, ih (fun h => hk (List.mem_cons_of_mem x h)) hfg]

theorem freeBlocksList_decomp {M k : Nat} (fl : Nat → List Nat) (hk : k ≤ M) :
    ∃ X Z : List (Nat × Nat),
      (∀ l', freeBlocksList M (setList fl k l') = X ++ l'.map (fun b => (b, k)) ++ Z) ∧
      freeBlocksList M fl = X ++ (fl k).map (fun b => (b, k)) ++ Z := by
  have hmem : k ∈ List.range (M + 1) := List.mem_range.2 (by omega)
  obtain ⟨s, t, hst⟩ := List.append_of_mem hmem
  have hnd : (List.range (M + 1)).Nodup := List.nodup_range (M + 1)
  rw [hst] at hnd
  rw [List.nodup_append] at hnd
  have hks : k ∉ s := fun h => hnd.2.2 h (List.mem_cons_self k t)
  have hkt : k ∉ t := (List.nodup_cons.1 hnd.2.1).1
  refine ⟨s.flatMap (fun j => (fl j).map fun b => (b, j)),
    t.flatMap (fun j => (fl j).map fun b => (b, j)), ?_, ?_⟩
  · intro l'
    unfold freeBlocksList
    rw [hst, List.flatMap_append, List.flatMap_cons]
    rw [flatMap_eq_of_ne (fun j => ((setList fl k l') j).map fun b => (b, j))
      (fun j => (fl j).map fun b => (b, j)) s hks
      (fun j hj => by simp [setList, hj])]
    rw [flatMap_eq_of_ne (fun j => ((setList fl k l') j).map fun b => (b, j))
      (fun j => (fl j).map fun b => (b, j)) t hkt
      (fun j hj => by simp [setList, hj])]
    simp [setList, List.append_assoc]
  · unfold freeBlocksList
    rw [hst, List.flatMap_append, List.flatMap_cons]
    simp [List.append_assoc]

/-! ### Characterisation of the `alloc` search and split loops -/

theorem findFrom_some {M : Nat} {fl : Nat → List Nat} :
    ∀ {fuel i j b}, i ≤ M → findFrom M fl fuel i = some (j, b) →
      i ≤ j ∧ j ≤ M ∧ (∃ tl, fl j = b :: tl) ∧ ∀ x, i ≤ x → x < j → fl x = [] := by
  intro fuel
  induction fuel with
  | zero => intro i j b _ h; exact absurd h (by simp [findFrom])
  | succ fuel ih =>
    intro i j b hiM h
    simp only [findFrom] at h
    cases hfl : fl i with
    | cons b' tl =>
      rw [hfl] at h
      injection h with h
      injection h with h1 h2
      subst h1; subst h2
      exact ⟨le_rfl, hiM, ⟨tl, hfl⟩, fun x hx1 hx2 => by omega⟩
    | nil =>
      rw [hfl] at h
      by_cases hiM' : i < M
      · rw [if_pos hiM'] at h
        obtain ⟨h1, h2, h3, h4⟩ := ih (by omega) h
        refine ⟨by omega, h2, h3, fun x hx1 hx2 => ?_⟩
        rcases Nat.eq_or_lt_of_le hx1 with rfl | hx1'
        · exact hfl
        · exact h4 x hx1' hx2
      · rw [if_neg hiM'] at h
        exact absurd h (by simp)

theorem findFrom_none {M : Nat} {fl : Nat → List Nat} :
    ∀ {fuel i}, M + 1 - i ≤ fuel → i ≤ M → findFrom M fl fuel i = none →
      ∀ j, i ≤ j → j ≤ M → fl j = [] := by
  intro fuel
  induction fuel with
  | zero => intro i h1 h2 _ _ _ _; omega
  | succ fuel ih =>
    intro i hfuel hiM h j hij hjM
    simp only [findFrom] at h
    cases hfl : fl i with
    | cons b' tl => rw [hfl] at h; exact absurd h (by simp)
    | nil =>
      rw [hfl] at h
      rcases Nat.eq_or_lt_of_le hij with rfl | hij'
      · exact hfl
      · by_cases hiM' : i < M
        · rw [if_pos hiM'] at h
          exact ih (by omega) (by omega) h j hij' hjM
        · omega

theorem findFrom_found {M : Nat} {fl : Nat → List Nat} :
    ∀ {fuel i j b tl}, i ≤ j → j ≤ M → j + 1 - i ≤ fuel →
      fl j = b :: tl → (∀ x, i ≤ x → x < j → fl x = []) →
      findFrom M fl fuel i = some (j, b) := by
  intro fuel
  induction fuel with
  | zero => intro i j b tl h1 _ h3 _ _; omega
  | succ fuel ih =>
    intro i j b tl hij hjM hfuel hj hempty
    simp only [findFrom]
    rcases Nat.eq_or_lt_of_le hij with rfl | hij'
    · rw [hj]
    · rw [hempty i le_rfl hij']
      rw [if_pos (by omega)]
      exact ih hij' hjM (by omega) hj (fun x hx1 hx2 => hempty x (by omega) hx2)

theorem splitLoop_apply {block order : Nat} :
    ∀ index fl j, splitLoop block order index fl j =
      if order ≤ j ∧ j < index then buddy_of block j :: fl j else fl j := by
  intro index
  induction index with
  | zero => intro fl j; simp [splitLoop]
  | succ index ih =>
    intro fl j
    simp only [splitLoop]
    by_cases ho : order < index + 1
    · rw [if_pos ho, ih]
      rcases Nat.lt_trichotomy j index with hj | rfl | hj
      · by_cases hoj : order ≤ j
        · rw [if_pos ⟨hoj, hj⟩, if_pos ⟨hoj, by omega⟩]
          simp [setList, Nat.ne_of_lt hj]
        · rw [if_neg (by omega), if_neg (by omega)]
          simp [setList, Nat.ne_of_lt hj]
      · rw [if_neg (by omega), if_pos ⟨by omega, by omega⟩]
        simp [setList]
      · rw [if_neg (by omega), if_neg (by omega)]
        simp [setList, Nat.ne_of_gt hj]
    · rw [if_neg ho, if_neg (by omega)]

theorem blockDisj_ne {p q : Nat × Nat} (h : blockDisj p q) : p.1 ≠ q.1 := by
  have hp : 0 < 2 ^ p.2 := Nat.pos_pow_of_pos p.2 (by norm_num)
  have hq : 0 < 2 ^ q.2 := Nat.pos_pow_of_pos q.2 (by norm_num)
  rcases h with h | h <;> omega

theorem blockDisj_of_subset {p q r : Nat × Nat}
    (hlo : q.1 ≤ p.1) (hhi : p.1 + 2 ^ p.2 ≤ q.1 + 2 ^ q.2)
    (h : blockDisj q r) : blockDisj p r := by
  rcases h with h | h
  · exact Or.inl (le_trans hhi h)
  · exact Or.inr (le_trans h hlo)

theorem pairwise_transfer {bs cs : List (Nat × Nat)} (hperm : bs.Perm cs)
    (h : List.Pairwise blockDisj bs) : List.Pairwise blockDisj cs :=
  (List.Perm.pairwise_iff (fun h => blockDisj_symm h) hperm).1 h

theorem sumSizes_cons' (b k : Nat) (bs : List (Nat × Nat)) :
    sumSizes ((b, k) :: bs) = 2 ^ k + sumSizes bs := by
  simp [sumSizes]

theorem freeBlocksList_update_perm {M k : Nat} {fl : Nat → List Nat} (hk : k ≤ M)
    {b : Nat} {l' : List Nat} (hperm : (fl k).Perm (b :: l')) :
    (freeBlocksList M fl).Perm ((b, k) :: freeBlocksList M (setList fl k l')) := by
  obtain ⟨X, Z, hset, horig⟩ := freeBlocksList_decomp fl hk
  rw [hset l', horig]
  have hmap : ((fl k).map fun x => (x, k)).Perm ((b, k) :: l'.map fun x => (x, k)) :=
    hperm.map _
  exact List.Perm.trans ((hmap.append_left X).append_right Z)
    (List.Perm.append_right Z List.perm_middle)

theorem freeBlocksList_pop_perm {M k : Nat} {fl : Nat → List Nat} (hk : k ≤ M)
    {b : Nat} {tl : List Nat} (hfl : fl k = b :: tl) :
    (freeBlocksList M fl).Perm ((b, k) :: freeBlocksList M (setList fl k tl)) :=
  freeBlocksList_update_perm hk (by rw [hfl])

theorem freeBlocksList_push_perm {M k : Nat} {fl : Nat → List Nat} (hk : k ≤ M) (b : Nat) :
    (freeBlocksList M (setList fl k (b :: fl k))).Perm ((b, k) :: freeBlocksList M fl) := by
  obtain ⟨X, Z, hset, horig⟩ := freeBlocksList_decomp fl hk
  rw [hset (b :: fl k), horig]
  simp only [List.map_cons]
  exact List.Perm.append_right Z List.perm_middle

theorem freeBlocksList_erase_perm {M k : Nat} {fl : Nat → List Nat} (hk : k ≤ M)
    {b : Nat} (hb : b ∈ fl k) :
    (freeBlocksList M fl).Perm
      ((b, k) :: freeBlocksList M (setList fl k ((fl k).erase b))) :=
  freeBlocksList_update_perm hk (List.perm_cons_erase hb)

/-! ### `FLInv` is preserved by the split loop of `alloc` -/

theorem push_upper_half {M : Nat} {rest : List (Nat × Nat)} {block index : Nat}
    {fl : Nat → List Nat} (hmin : MIN_ORDER ≤ index) (hM : index + 1 ≤ M)
    (hrange : block + 2 ^ (index + 1) ≤ 2 ^ M) (hdvd : 2 ^ (index + 1) ∣ block)
    (hinv : FLInv M fl ((block, index + 1) :: rest)) :
    FLInv M (setList fl index (buddy_of block index :: fl index))
      ((block, index) :: rest) := by
  have hbadd : buddy_of block index = block + 2 ^ index :=
    buddy_add (Nat.lt_succ_self index) hdvd
  have hpow : (2 : Nat) ^ (index + 1) = 2 ^ index + 2 ^ index := by ring
  have hd0 : List.Pairwise blockDisj ((block, index + 1) :: (freeBlocksList M fl ++ rest)) :=
    pairwise_transfer List.perm_middle hinv.disj
  obtain ⟨hhead, htail⟩ := List.pairwise_cons.1 hd0
  have hblocknotin : ∀ j, j ≤ M → block ∉ fl j := by
    intro j hj hmem
    have hmem2 : ((block, j) : Nat × Nat) ∈ freeBlocksList M fl ++ rest :=
      List.mem_append_left rest (mem_freeBlocksList.2 ⟨hj, hmem⟩)
    exact blockDisj_ne (hhead (block, j) hmem2) rfl
  have hperm : ((freeBlocksList M (setList fl index (buddy_of block index :: fl index)) ++
      (block, index) :: rest)).Perm
      ((block, index) :: (buddy_of block index, index) :: (freeBlocksList M fl ++ rest)) := by
    have hp1 : ((freeBlocksList M (setList fl index (buddy_of block index :: fl index)) ++
        (block, index) :: rest)).Perm
        ((block, index) ::
          (freeBlocksList M (setList fl index (buddy_of block index :: fl index)) ++ rest)) :=
      List.perm_middle
    have hp2 : ((freeBlocksList M (setList fl index (buddy_of block index :: fl index)) ++
        rest)).Perm ((buddy_of block index, index) :: (freeBlocksList M fl ++ rest)) :=
      (freeBlocksList_push_perm (by omega) (buddy_of block index)).append_right rest
    exact hp1.trans (hp2.cons _)
  refine ⟨?_, ?_, ?_, ?_, ?_⟩
  · intro k hk
    rcases eq_or_ne k index with rfl | hki
    · exact ⟨hmin, by omega⟩
    · refine hinv.range k ?_
      simpa [setList, hki] using hk
  · intro k b hb
    rcases eq_or_ne k index with rfl | hki
    · simp only [setList, if_pos rfl] at hb
      rcases List.mem_cons.1 hb with rfl | hb'
      · constructor
        · rw [hbadd]; omega
        · rw [hbadd]
          exact Nat.dvd_add (dvd_trans (pow_dvd_pow 2 (Nat.le_succ k)) hdvd) dvd_rfl
      · exact hinv.bounds k b hb'
    · simp only [setList, if_neg hki] at hb
      exact hinv.bounds k b hb
  · have hcore : List.Pairwise blockDisj
        ((block, index) :: (buddy_of block index, index) ::
          (freeBlocksList M fl ++ rest)) := by
      refine List.Pairwise.cons ?_ (List.Pairwise.cons ?_ htail)
      · intro q hq
        rcases List.mem_cons.1 hq with rfl | hq'
        · exact Or.inl (by rw [hbadd])
        · refine blockDisj_of_subset (p := (block, index)) (q := (block, index + 1))
            le_rfl ?_ (hhead q hq')
          show block + 2 ^ index ≤ block + 2 ^ (index + 1)
          omega
      · intro q hq
        refine blockDisj_of_subset (p := (buddy_of block index, index))
          (q := (block, index + 1)) ?_ ?_ (hhead q hq)
        · show block ≤ buddy_of block index
          rw [hbadd]; omega
        · show buddy_of block index + 2 ^ index ≤ block + 2 ^ (index + 1)
          rw [hbadd]; omega
    exact pairwise_transfer hperm.symm hcore
  · have hs1 := sumSizes_perm hperm
    have hs2 : sumSizes (freeBlocksList M fl ++ (block, index + 1) :: rest) =
        sumSizes ((block, index + 1) :: (freeBlocksList M fl ++ rest)) :=
      sumSizes_perm List.perm_middle
    have ht := hinv.tiles
    rw [hs2, sumSizes_cons'] at ht
    rw [hs1, sumSizes_cons', sumSizes_cons']
    omega
  · intro k b hb
    rcases eq_or_ne k index with rfl | hki
    · simp only [setList, if_pos rfl] at hb ⊢
      have hbudinv : buddy_of (buddy_of block k) k = block := by
        simp only [buddy_of]
        exact xor_two_pow_self_inv block k
      rcases List.mem_cons.1 hb with rfl | hb'
      · intro hmem
        rw [hbudinv] at hmem
        rcases List.mem_cons.1 hmem with heq | hmem'
        · rw [hbadd] at heq
          have hkpos : 0 < 2 ^ k := Nat.pos_pow_of_pos k (by norm_num)
          omega
        · exact hblocknotin k (by omega) hmem'
      · intro hmem
        rcases List.mem_cons.1 hmem with heq | hmem'
        · have hbb : b = block := by
            have h2 := congrArg (fun x => x ^^^ 2 ^ k) heq
            simp only [buddy_of] at h2
            rwa [xor_two_pow_self_inv, xor_two_pow_self_inv] at h2
          exact hblocknotin k (by omega) (hbb ▸ hb')
        · exact hinv.noPair k b hb' hmem'
    · simp only [setList, if_neg hki] at hb ⊢
      exact hinv.noPair k b hb

theorem splitLoop_inv {M : Nat} {rest : List (Nat × Nat)} {block order : Nat}
    (hmin : MIN_ORDER ≤ order) :
    ∀ index fl, order ≤ index → index ≤ M →
      block + 2 ^ index ≤ 2 ^ M → 2 ^ index ∣ block →
      FLInv M fl ((block, index) :: rest) →
      FLInv M (splitLoop block order index fl) ((block, order) :: rest) := by
  intro index
  induction index with
  | zero =>
    intro fl hord _ _ _ hinv
    have h0 : order = 0 := by omega
    subst h0
    simpa [splitLoop] using hinv
  | succ index ih =>
    intro fl hord hM hrange hdvd hinv
    simp only [splitLoop]
    by_cases ho : order < index + 1
    · rw [if_pos ho]
      have hpow : (2 : Nat) ^ (index + 1) = 2 ^ index + 2 ^ index := by ring
      refine ih _ (by omega) (by omega) (by omega)
        (dvd_trans (pow_dvd_pow 2 (Nat.le_succ index)) hdvd) ?_
      exact push_upper_half (le_trans hmin (by omega)) hM hrange hdvd hinv
    · rw [if_neg ho]
      have h1 : order = index + 1 := by omega
      subst h1
      exact hinv

/-! ### `alloc` preserves the invariant -/

theorem alloc_some {M : Nat} {a : BuddyAllocator} {size p : Nat} {a' : BuddyAllocator}
    (h : alloc M a size = (some p, a')) :
    1 ≤ size ∧ max MIN_ORDER (log2 ((size + 1) % 2 ^ 32)) ≤ M ∧
    ∃ index tl, max MIN_ORDER (log2 ((size + 1) % 2 ^ 32)) ≤ index ∧ index ≤ M ∧
      a.freelists index = p :: tl ∧
      (∀ x, max MIN_ORDER (log2 ((size + 1) % 2 ^ 32)) ≤ x → x < index →
        a.freelists x = []) ∧
      a' = { freelists := splitLoop p (max MIN_ORDER (log2 ((size + 1) % 2 ^ 32))) index
               (setList a.freelists index tl),
             orders := fun x => if x = p then max MIN_ORDER (log2 ((size + 1) % 2 ^ 32))
               else a.orders x } := by
  simp only [alloc] at h
  split at h
  · exact absurd (congrArg Prod.fst h) (by simp)
  · rename_i hc
    push_neg at hc
    split at h
    · exact absurd (congrArg Prod.fst h) (by simp)
    · rename_i index block heq
      have hp : block = p := by
        have h1 := congrArg Prod.fst h
        simpa using h1
      subst hp
      have ha' := congrArg Prod.snd h
      simp only at ha'
      obtain ⟨hle, hM, ⟨tl, hfl⟩, hempty⟩ := findFrom_some hc.2 heq
      refine ⟨by omega, hc.2, index, tl, hle, hM, hfl, hempty, ?_⟩
      rw [← ha', hfl]
      rfl

theorem FLInv_shrink {M k : Nat} {fl : Nat → List Nat} {rest : List (Nat × Nat)}
    {b : Nat} {l' : List Nat} (hk : k ≤ M) (hperm : (fl k).Perm (b :: l'))
    (hinv : FLInv M fl rest) : FLInv M (setList fl k l') ((b, k) :: rest) := by
  have hmemk : ∀ x ∈ l', x ∈ fl k := fun x hx =>
    hperm.mem_iff.2 (List.mem_cons_of_mem b hx)
  have hperm2 : (freeBlocksList M fl ++ rest).Perm
      (freeBlocksList M (setList fl k l') ++ ((b, k) :: rest)) := by
    have hp1 : (freeBlocksList M fl ++ rest).Perm
        (((b, k) :: freeBlocksList M (setList fl k l')) ++ rest) :=
      (freeBlocksList_update_perm hk hperm).append_right rest
    exact hp1.trans (List.perm_middle.symm)
  refine ⟨?_, ?_, ?_, ?_, ?_⟩
  · intro j hj
    rcases eq_or_ne j k with rfl | hjk
    · refine hinv.range j ?_
      intro hnil
      rw [hnil] at hperm
      exact absurd hperm.symm (by simp)
    · refine hinv.range j ?_
      simpa [setList, hjk] using hj
  · intro j x hx
    rcases eq_or_ne j k with rfl | hjk
    · simp only [setList, if_pos rfl] at hx
      exact hinv.bounds j x (hmemk x hx)
    · simp only [setList, if_neg hjk] at hx
      exact hinv.bounds j x hx
  · exact pairwise_transfer hperm2 hinv.disj
  · rw [← sumSizes_perm hperm2]
    exact hinv.tiles
  · intro j x hx
    rcases eq_or_ne j k with rfl | hjk
    · simp only [setList, if_pos rfl] at hx ⊢
      intro hmem
      exact hinv.noPair j x (hmemk x hx) (hmemk _ hmem)
    · simp only [setList, if_neg hjk] at hx ⊢
      exact hinv.noPair j x hx

theorem alloc_inv {M : Nat} {a : BuddyAllocator} {live : List (Nat × Nat)}
    {size p : Nat} {a' : BuddyAllocator}
    (hinv : Inv M a live) (hsize : size < 2 ^ 32)
    (h : alloc M a size = (some p, a')) : Inv M a' ((p, size) :: live) := by
  obtain ⟨hs1, hordM, index, tl, hle, hM, hfl, hempty, ha'⟩ := alloc_some h
  have hpbounds := hinv.fli.bounds index p (by rw [hfl]; exact List.mem_cons_self p tl)
  have hpop : FLInv M (setList a.freelists index tl)
      ((p, index) :: liveBlocks a.orders live) :=
    FLInv_shrink hM (by rw [hfl]) hinv.fli
  have hsplit : FLInv M
      (splitLoop p (max MIN_ORDER (log2 ((size + 1) % 2 ^ 32))) index
        (setList a.freelists index tl))
      ((p, max MIN_ORDER (log2 ((size + 1) % 2 ^ 32))) :: liveBlocks a.orders live) :=
    splitLoop_inv (le_max_left _ _) index _ hle hM hpbounds.1 hpbounds.2 hpop
  have hpnotlive : ∀ q ∈ live, q.1 ≠ p := by
    intro q hq hqp
    have hd := pairwise_transfer List.perm_middle hsplit.disj
    obtain ⟨hhead, _⟩ := List.pairwise_cons.1 hd
    have hmem : ((q.1, a.orders q.1) : Nat × Nat) ∈
        freeBlocksList M (splitLoop p (max MIN_ORDER (log2 ((size + 1) % 2 ^ 32))) index
          (setList a.freelists index tl)) ++ liveBlocks a.orders live :=
      List.mem_append_right _ (List.mem_map.2 ⟨q, hq, rfl⟩)
    exact blockDisj_ne (hhead _ hmem) (by simpa using hqp.symm)
  have horders : ∀ q ∈ live, a'.orders q.1 = a.orders q.1 := by
    intro q hq
    rw [ha']
    simp only [if_neg (hpnotlive q hq)]
  have hlb : liveBlocks a'.orders ((p, size) :: live) =
      (p, max MIN_ORDER (log2 ((size + 1) % 2 ^ 32))) :: liveBlocks a.orders live := by
    simp only [liveBlocks, List.map_cons]
    congr 1
    · rw [ha']; simp
    · exact List.map_congr_left fun q hq => by rw [horders q hq]
  have hofl : a'.freelists =
      splitLoop p (max MIN_ORDER (log2 ((size + 1) % 2 ^ 32))) index
        (setList a.freelists index tl) := by
    rw [ha']
  refine ⟨?_, ?_⟩
  · rw [hlb, hofl]
    exact hsplit
  · intro q hq
    rcases List.mem_cons.1 hq with rfl | hq'
    · have hop : a'.orders p = max MIN_ORDER (log2 ((size + 1) % 2 ^ 32)) := by
        rw [ha']; simp
      show MIN_ORDER ≤ a'.orders p ∧ a'.orders p ≤ M ∧ p + 2 ^ a'.orders p ≤ 2 ^ M ∧
        2 ^ a'.orders p ∣ p ∧ 1 ≤ size ∧ (size + 1 < 2 ^ 32 → size + 1 ≤ 2 ^ a'.orders p)
      rw [hop]
      have hpow : 2 ^ max MIN_ORDER (log2 ((size + 1) % 2 ^ 32)) ≤ 2 ^ index :=
        Nat.pow_le_pow_right (by norm_num) hle
      refine ⟨le_max_left _ _, hordM, by omega,
        dvd_trans (pow_dvd_pow 2 hle) hpbounds.2, hs1, ?_⟩
      intro hwrap
      have hmod : (size + 1) % 2 ^ 32 = size + 1 := Nat.mod_eq_of_lt hwrap
      calc size + 1 ≤ 2 ^ log2 (size + 1) :=
            le_two_pow_log2 (by omega)
      _ ≤ 2 ^ max MIN_ORDER (log2 ((size + 1) % 2 ^ 32)) := by
            rw [hmod]
            exact Nat.pow_le_pow_right (by norm_num) (le_max_right _ _)
    · rw [horders q hq']
      exact hinv.liveBounds q hq'

/-! ### `free` terminates and preserves the invariant -/

theorem blockDisj_union {lo k : Nat} {r : Nat × Nat}
    (h1 : blockDisj (lo, k) r) (h2 : blockDisj (lo + 2 ^ k, k) r) :
    blockDisj (lo, k + 1) r := by
  have h2pow : (2 : Nat) ^ (k + 1) = 2 ^ k + 2 ^ k := by ring
  have hrpos : 0 < 2 ^ r.2 := Nat.pos_pow_of_pos r.2 (by norm_num)
  simp only [blockDisj] at h1 h2 ⊢
  omega

theorem freeLoop_ok {M : Nat} {rest : List (Nat × Nat)} :
    ∀ fuel block k fl, MIN_ORDER ≤ k → k ≤ M →
      block + 2 ^ k ≤ 2 ^ M → 2 ^ k ∣ block →
      FLInv M fl ((block, k) :: rest) →
      M + 1 - k ≤ fuel →
      ∃ fl', freeLoop block k fl fuel = some fl' ∧ FLInv M fl' rest := by
  intro fuel
  induction fuel with
  | zero =>
    intro block k fl _ hkM _ _ _ hfuel
    exfalso
    omega
  | succ fuel ih =>
    intro block k fl hmin hkM hrange hdvd hinv hfuel
    have hkpos : 0 < 2 ^ k := Nat.pos_pow_of_pos k (by norm_num)
    simp only [freeLoop]
    by_cases hmem : buddy_of block k ∈ fl k
    · rw [if_pos hmem]
      have hbud_bounds := hinv.bounds k (buddy_of block k) hmem
      have hkM' : k < M := by
        rcases Nat.lt_or_ge k M with h | h
        · exact h
        · exfalso
          have hkeq : k = M := by omega
          rw [hkeq] at hrange
          have hb0 : block = 0 := by
            have : 0 < 2 ^ M := Nat.pos_pow_of_pos M (by norm_num)
            omega
          have hbud : buddy_of block k = 2 ^ k := by
            rw [hb0]
            simp [buddy_of]
          have := hbud_bounds.1
          rw [hbud, hkeq] at this
          have : 0 < 2 ^ M := Nat.pos_pow_of_pos M (by norm_num)
          omega
      have hmerge := buddy_merge hdvd
      rw [show block ^^^ 2 ^ k = buddy_of block k from rfl] at hmerge
      have h2pow : (2 : Nat) ^ (k + 1) = 2 ^ k + 2 ^ k := by ring
      have hmax_le : max block (buddy_of block k) + 2 ^ k ≤ 2 ^ M := by
        rcases le_total block (buddy_of block k) with h | h
        · rw [max_eq_right h]; exact hbud_bounds.1
        · rw [max_eq_left h]; exact hrange
      have hnewrange : min block (buddy_of block k) + 2 ^ (k + 1) ≤ 2 ^ M := by
        have := hmerge.2
        omega
      have hinv1 : FLInv M (setList fl k ((fl k).erase (buddy_of block k)))
          ((buddy_of block k, k) :: (block, k) :: rest) :=
        FLInv_shrink hkM (List.perm_cons_erase hmem) hinv
      have hinv2 : FLInv M (setList fl k ((fl k).erase (buddy_of block k)))
          ((min block (buddy_of block k), k + 1) :: rest) := by
        have hd0 : List.Pairwise blockDisj ((buddy_of block k, k) :: (block, k) ::
            (freeBlocksList M (setList fl k ((fl k).erase (buddy_of block k))) ++ rest)) := by
          refine pairwise_transfer ?_ hinv1.disj
          exact List.Perm.trans List.perm_middle (List.Perm.cons _ List.perm_middle)
        obtain ⟨hh1, hd1⟩ := List.pairwise_cons.1 hd0
        obtain ⟨hh2, htail⟩ := List.pairwise_cons.1 hd1
        have hheadnew : ∀ r ∈
            freeBlocksList M (setList fl k ((fl k).erase (buddy_of block k))) ++ rest,
            blockDisj (min block (buddy_of block k), k + 1) r := by
          intro r hr
          have hblo : blockDisj (min block (buddy_of block k), k) r := by
            rcases le_total block (buddy_of block k) with h | h
            · rw [min_eq_left h]
              exact hh2 r hr
            · rw [min_eq_right h]
              exact hh1 r (List.mem_cons_of_mem _ hr)
          have hbhi : blockDisj (min block (buddy_of block k) + 2 ^ k, k) r := by
            rw [← hmerge.2]
            rcases le_total block (buddy_of block k) with h | h
            · rw [max_eq_right h]
              exact hh1 r (List.mem_cons_of_mem _ hr)
            · rw [max_eq_left h]
              exact hh2 r hr
          exact blockDisj_union hblo hbhi
        refine ⟨hinv1.range, hinv1.bounds, ?_, ?_, hinv1.noPair⟩
        · refine pairwise_transfer List.perm_middle.symm ?_
          exact List.Pairwise.cons hheadnew htail
        · have hs1 : sumSizes
              (freeBlocksList M (setList fl k ((fl k).erase (buddy_of block k))) ++
                (buddy_of block k, k) :: (block, k) :: rest) =
              sumSizes ((buddy_of block k, k) :: (block, k) ::
                (freeBlocksList M (setList fl k ((fl k).erase (buddy_of block k))) ++ rest)) :=
            sumSizes_perm (List.Perm.trans List.perm_middle
              (List.Perm.cons _ List.perm_middle))
          have ht := hinv1.tiles
          rw [hs1, sumSizes_cons', sumSizes_cons'] at ht
          have hs2 : sumSizes
              (freeBlocksList M (setList fl k ((fl k).erase (buddy_of block k))) ++
                (min block (buddy_of block k), k + 1) :: rest) =
              sumSizes ((min block (buddy_of block k), k + 1) ::
                (freeBlocksList M (setList fl k ((fl k).erase (buddy_of block k))) ++ rest)) :=
            sumSizes_perm List.perm_middle
          rw [hs2, sumSizes_cons']
          omega
      obtain ⟨fl', hsome, hfl'⟩ := ih (min block (buddy_of block k)) (k + 1)
        (setList fl k ((fl k).erase (buddy_of block k)))
        (by omega) (by omega) hnewrange hmerge.1 hinv2 (by omega)
      exact ⟨fl', hsome, hfl'⟩
    · rw [if_neg hmem]
      refine ⟨_, rfl, ?_⟩
      have hperm : ((freeBlocksList M (setList fl k (block :: fl k)) ++ rest)).Perm
          (freeBlocksList M fl ++ ((block, k) :: rest)) := by
        have hp1 : ((freeBlocksList M (setList fl k (block :: fl k)) ++ rest)).Perm
            ((block, k) :: (freeBlocksList M fl ++ rest)) :=
          (freeBlocksList_push_perm hkM block).append_right rest
        exact hp1.trans List.perm_middle.symm
      refine ⟨?_, ?_, ?_, ?_, ?_⟩
      · intro j hj
        rcases eq_or_ne j k with rfl | hjk
        · exact ⟨hmin, hkM⟩
        · refine hinv.range j ?_
          simpa [setList, hjk] using hj
      · intro j x hx
        rcases eq_or_ne j k with rfl | hjk
        · simp only [setList, if_pos rfl] at hx
          rcases List.mem_cons.1 hx with rfl | hx'
          · exact ⟨hrange, hdvd⟩
          · exact hinv.bounds j x hx'
        · simp only [setList, if_neg hjk] at hx
          exact hinv.bounds j x hx
      · exact pairwise_transfer hperm.symm hinv.disj
      · rw [sumSizes_perm hperm]
        exact hinv.tiles
      · intro j x hx
        rcases eq_or_ne j k with rfl | hjk
        · simp only [setList, if_pos rfl] at hx ⊢
          rcases List.mem_cons.1 hx with rfl | hx'
          · intro hmem2
            rcases List.mem_cons.1 hmem2 with heq | hmem3
            · exact xor_two_pow_ne heq
            · exact hmem hmem3
          · intro hmem2
            rcases List.mem_cons.1 hmem2 with heq | hmem3
            · have hxb : x = buddy_of block j := by
                have h2 := congrArg (fun y => y ^^^ 2 ^ j) heq
                simp only [buddy_of] at h2 ⊢
                rwa [xor_two_pow_self_inv] at h2
              rw [hxb] at hx'
              exact hmem hx'
            · exact hinv.noPair j x hx' hmem3
        · simp only [setList, if_neg hjk] at hx ⊢
          exact hinv.noPair j x hx

theorem live_pending_fli {M : Nat} {a : BuddyAllocator} {l₁ l₂ : List (Nat × Nat)}
    {p s : Nat} (hinv : Inv M a (l₁ ++ (p, s) :: l₂)) :
    FLInv M a.freelists ((p, a.orders p) :: liveBlocks a.orders (l₁ ++ l₂)) := by
  have hlperm : (liveBlocks a.orders (l₁ ++ (p, s) :: l₂)).Perm
      ((p, a.orders p) :: liveBlocks a.orders (l₁ ++ l₂)) := by
    simp only [liveBlocks, List.map_append, List.map_cons]
    exact List.perm_middle
  refine ⟨hinv.fli.range, hinv.fli.bounds, ?_, ?_, hinv.fli.noPair⟩
  · exact pairwise_transfer (hlperm.append_left _) hinv.fli.disj
  · rw [← sumSizes_perm (hlperm.append_left _)]
    exact hinv.fli.tiles

theorem free_some_inv {M : Nat} {a : BuddyAllocator} {l₁ l₂ : List (Nat × Nat)}
    {p s : Nat} (hinv : Inv M a (l₁ ++ (p, s) :: l₂)) :
    ∃ a', free M a (some p) = some a' ∧ Inv M a' (l₁ ++ l₂) := by
  have hmem : (p, s) ∈ l₁ ++ (p, s) :: l₂ :=
    List.mem_append_right l₁ (List.mem_cons_self _ _)
  obtain ⟨h1, h2, h3, h4, _, _⟩ := hinv.liveBounds (p, s) hmem
  have hfli := live_pending_fli hinv
  obtain ⟨fl', hsome, hfl'inv⟩ := freeLoop_ok (M + 2 - a.orders p) p (a.orders p)
    a.freelists h1 h2 h3 h4 hfli (by omega)
  refine ⟨{ a with freelists := fl' }, ?_, ?_, ?_⟩
  · simp only [free]
    rw [hsome]
  · exact hfl'inv
  · intro q hq
    refine hinv.liveBounds q ?_
    rcases List.mem_append.1 hq with hq' | hq'
    · exact List.mem_append_left _ hq'
    · exact List.mem_append_right _ (List.mem_cons_of_mem _ hq')

/-! ### Every reachable state satisfies the invariant -/

theorem flatMap_nil_of_forall {α : Type} (f : Nat → List α) :
    ∀ l : List Nat, (∀ j ∈ l, f j = []) → l.flatMap f = [] := by
  intro l
  induction l with
  | nil => intro _; rfl
  | cons x xs ih =>
    intro h
    simp only [List.flatMap_cons]
    rw [h x (List.mem_cons_self x xs), ih (fun j hj => h j (List.mem_cons_of_mem x hj))]
    rfl

theorem freeBlocksList_fresh (M : Nat) :
    freeBlocksList M (fresh M).freelists = [(0, M)] := by
  rw [freeBlocksList, List.range_succ, List.flatMap_append]
  rw [flatMap_nil_of_forall]
  · simp [fresh]
  · intro j hj
    have hjM := List.mem_range.1 hj
    simp [fresh, Nat.ne_of_lt hjM]

theorem fresh_inv {M : Nat} (hM : MIN_ORDER ≤ M) : Inv M (fresh M) [] := by
  refine ⟨⟨?_, ?_, ?_, ?_, ?_⟩, ?_⟩
  · intro k hk
    by_cases hkM : k = M
    · subst hkM; exact ⟨hM, le_rfl⟩
    · simp [fresh, hkM] at hk
  · intro k b hb
    by_cases hkM : k = M
    · subst hkM
      simp [fresh] at hb
      subst hb
      exact ⟨by simp, dvd_zero _⟩
    · simp [fresh, hkM] at hb
  · rw [freeBlocksList_fresh]
    simp [liveBlocks]
  · rw [freeBlocksList_fresh]
    simp [liveBlocks, sumSizes]
  · intro k b hb
    by_cases hkM : k = M
    · subst hkM
      simp [fresh] at hb ⊢
      subst hb
      simp only [buddy_of, Nat.zero_xor]
      exact Nat.pos_iff_ne_zero.1 (Nat.pos_pow_of_pos k (by norm_num))
    · simp [fresh, hkM] at hb
  · intro q hq
    cases hq

theorem reach_inv {M : Nat} (hM : MIN_ORDER ≤ M) {a : BuddyAllocator}
    {live : List (Nat × Nat)} (h : Reach M a live) : Inv M a live := by
  induction h with
  | init => exact fresh_inv hM
  | allocStep hr hsize halloc ih => exact alloc_inv ih hsize halloc
  | freeStep hr hfree ih =>
    obtain ⟨a'', hsome, hinv'⟩ := free_some_inv ih
    rw [hfree] at hsome
    injection hsome with heq
    rwa [← heq] at hinv'

/-! ### The canonical states of a fixed-order exhaustion run

Repeatedly allocating a fixed size whose order is `k` from a fresh allocator
walks through states whose free lists mirror the binary representation of the
remaining capacity `2 ^ (M - k) - n` (in units of `2 ^ k`), with the `n`-th
allocation returning offset `n * 2 ^ k`. -/

/-- The free lists after `n` successful order-`k` allocations from a fresh
allocator: list `j` holds one block exactly when bit `j - k` of
`2 ^ (M - k) - n` is set, and that block directly follows the free blocks of
lower order, which in turn follow the `n * 2 ^ k` allocated bytes. -/
def canonFL (M k n : Nat) : Nat → List Nat :=
  fun j =>
    if k ≤ j ∧ j ≤ M ∧ (2 ^ (M - k) - n) / 2 ^ (j - k) % 2 = 1 then
      [(n + (2 ^ (M - k) - n) % 2 ^ (j - k)) * 2 ^ k]
    else []

theorem canonFL_eq_nil {M k n j : Nat}
    (h : ¬(k ≤ j ∧ j ≤ M ∧ (2 ^ (M - k) - n) / 2 ^ (j - k) % 2 = 1)) :
    canonFL M k n j = [] := by
  simp only [canonFL, if_neg h]

theorem canonFL_eq_single {M k n j : Nat}
    (h1 : k ≤ j) (h2 : j ≤ M) (h3 : (2 ^ (M - k) - n) / 2 ^ (j - k) % 2 = 1) :
    canonFL M k n j = [(n + (2 ^ (M - k) - n) % 2 ^ (j - k)) * 2 ^ k] := by
  simp only [canonFL, if_pos (And.intro h1 (And.intro h2 h3))]

theorem exists_bit_one {R : Nat} (hR : 0 < R) : ∃ i, R / 2 ^ i % 2 = 1 := by
  refine ⟨Nat.log2 R, ?_⟩
  have hpos : 0 < 2 ^ Nat.log2 R := Nat.pos_pow_of_pos _ (by norm_num)
  have h1 : 2 ^ Nat.log2 R ≤ R := Nat.log2_self_le (by omega)
  have h2 : R < 2 ^ (Nat.log2 R + 1) := Nat.lt_log2_self
  have h3 : R / 2 ^ Nat.log2 R = 1 := by
    have hlo : 1 ≤ R / 2 ^ Nat.log2 R := (Nat.one_le_div_iff hpos).2 h1
    have hhi : R / 2 ^ Nat.log2 R < 2 := by
      apply Nat.div_lt_of_lt_mul
      rw [← Nat.pow_succ]
      exact h2
    omega
  rw [h3]

theorem dvd_of_low_bits_zero {R : Nat} :
    ∀ t, (∀ i, i < t → R / 2 ^ i % 2 = 0) → 2 ^ t ∣ R := by
  intro t
  induction t with
  | zero => intro _; simp
  | succ t ih =>
    intro h
    obtain ⟨b, hb⟩ := ih (fun i hi => h i (by omega))
    have h2 := h t (by omega)
    rw [hb, Nat.mul_div_cancel_left b (Nat.pos_pow_of_pos t (by norm_num))] at h2
    obtain ⟨c, hc⟩ := Nat.dvd_of_mod_eq_zero h2
    exact ⟨c, by rw [hb, hc]; ring⟩

theorem pred_mod_pow {R i : Nat} (hdvd : 2 ^ i ∣ R) (hR : 0 < R) :
    (R - 1) % 2 ^ i = 2 ^ i - 1 ∧ (R - 1) / 2 ^ i = R / 2 ^ i - 1 := by
  have hpos : 0 < 2 ^ i := Nat.pos_pow_of_pos i (by norm_num)
  obtain ⟨b, hb⟩ := hdvd
  have hbpos : 0 < b := by
    rcases Nat.eq_zero_or_pos b with rfl | h
    · omega
    · exact h
  obtain ⟨c, rfl⟩ : ∃ c, b = c + 1 := ⟨b - 1, by omega⟩
  have hexp : 2 ^ i * (c + 1) - 1 = 2 ^ i * c + (2 ^ i - 1) := by
    rw [Nat.mul_add, Nat.mul_one]
    omega
  subst hb
  constructor
  · rw [hexp, Nat.mul_add_mod, Nat.mod_eq_of_lt (by omega)]
  · rw [hexp, Nat.mul_add_div hpos, Nat.div_eq_of_lt (by omega),
      Nat.mul_div_cancel_left _ hpos]
    omega

theorem sub_one_mod_pow_of_not_dvd {R i : Nat} (h : R % 2 ^ i ≠ 0) :
    (R - 1) % 2 ^ i = R % 2 ^ i - 1 ∧ (R - 1) / 2 ^ i = R / 2 ^ i := by
  have hpos : 0 < 2 ^ i := Nat.pos_pow_of_pos i (by norm_num)
  have hdm := Nat.div_add_mod R (2 ^ i)
  have hclt : R % 2 ^ i < 2 ^ i := Nat.mod_lt _ hpos
  have hexp : R - 1 = 2 ^ i * (R / 2 ^ i) + (R % 2 ^ i - 1) := by omega
  constructor
  · rw [hexp, Nat.mul_add_mod, Nat.mod_eq_of_lt (by omega)]
  · rw [hexp, Nat.mul_add_div hpos,
      Nat.div_eq_of_lt (lt_of_le_of_lt (Nat.sub_le _ _) hclt), Nat.add_zero]

theorem div_pow_mod_two (x i : Nat) : x / 2 ^ i % 2 = x % 2 ^ (i + 1) / 2 ^ i := by
  have hpos : 0 < 2 ^ i := Nat.pos_pow_of_pos i (by norm_num)
  have hpos1 : 0 < 2 ^ (i + 1) := Nat.pos_pow_of_pos (i + 1) (by norm_num)
  obtain ⟨q, r, hr, hx⟩ : ∃ q r, r < 2 ^ (i + 1) ∧ x = 2 ^ (i + 1) * q + r :=
    ⟨x / 2 ^ (i + 1), x % 2 ^ (i + 1), Nat.mod_lt _ hpos1, (Nat.div_add_mod x _).symm⟩
  have hdlt : r / 2 ^ i < 2 := by
    apply Nat.div_lt_of_lt_mul
    rw [← Nat.pow_succ]
    exact hr
  subst hx
  rw [Nat.mul_add_mod, Nat.mod_eq_of_lt hr]
  rw [show 2 ^ (i + 1) * q + r = 2 ^ i * (2 * q) + r by ring]
  rw [Nat.mul_add_div hpos]
  rw [show 2 * q + r / 2 ^ i = r / 2 ^ i + q * 2 by ring, Nat.add_mul_mod_self_right]
  exact Nat.mod_eq_of_lt hdlt

theorem findFrom_empty {M : Nat} {fl : Nat → List Nat} :
    ∀ fuel i, (∀ j, i ≤ j → fl j = []) → findFrom M fl fuel i = none := by
  intro fuel
  induction fuel with
  | zero => intro i _; rfl
  | succ fuel ih =>
    intro i h
    simp only [findFrom]
    rw [h i le_rfl]
    by_cases hiM : i < M
    · rw [if_pos hiM]
      exact ih (i + 1) (fun j hj => h j (by omega))
    · rw [if_neg hiM]

theorem fresh_canon {M k : Nat} (hkM : k ≤ M) : (fresh M).freelists = canonFL M k 0 := by
  funext j
  simp only [fresh, canonFL, Nat.sub_zero]
  by_cases hj : j = M
  · subst hj
    rw [if_pos rfl, if_pos ?_]
    · have hms : 2 ^ (j - k) % 2 ^ (j - k) = 0 := Nat.mod_self _
      simp [hms]
    · refine ⟨hkM, le_rfl, ?_⟩
      rw [Nat.div_self (Nat.pos_pow_of_pos (j - k) (by norm_num))]
  · rw [if_neg hj, if_neg ?_]
    rintro ⟨hk1, hk2, hbit⟩
    have hjM : j < M := by omega
    have hile : j - k ≤ M - k := by omega
    rw [Nat.pow_div hile (by norm_num)] at hbit
    have hpos : 1 ≤ M - k - (j - k) := by omega
    obtain ⟨e, he⟩ : ∃ e, M - k - (j - k) = e + 1 := ⟨M - k - (j - k) - 1, by omega⟩
    rw [he, Nat.pow_succ, Nat.mul_mod_left] at hbit
    exact absurd hbit (by norm_num)

theorem alloc_canon_aux {M k s n t : Nat} (hkM : k ≤ M) (hs : s ≠ 0)
    (hord : max MIN_ORDER (log2 ((s + 1) % 2 ^ 32)) = k)
    (hn : n < 2 ^ (M - k))
    (hF1 : (2 ^ (M - k) - n) / 2 ^ t % 2 = 1)
    (hF2 : ∀ i, i < t → (2 ^ (M - k) - n) / 2 ^ i % 2 = 0)
    (a : BuddyAllocator) (hfl : a.freelists = canonFL M k n) :
    (alloc M a s).1 = some (n * 2 ^ k) ∧
    (alloc M a s).2.freelists = canonFL M k (n + 1) := by
  have hRpos : 0 < 2 ^ (M - k) - n := by omega
  have hdvdt : 2 ^ t ∣ 2 ^ (M - k) - n := dvd_of_low_bits_zero t hF2
  have htpos : 0 < 2 ^ t := Nat.pos_pow_of_pos t (by norm_num)
  have htle : t ≤ M - k := by
    have h1 : 2 ^ t ≤ 2 ^ (M - k) - n := Nat.le_of_dvd hRpos hdvdt
    have h2 : 2 ^ (M - k) - n ≤ 2 ^ (M - k) := by omega
    exact (Nat.pow_le_pow_iff_right (by norm_num : 1 < 2)).1 (le_trans h1 h2)
  have hdvdn : 2 ^ t ∣ n := by
    have h1 : 2 ^ t ∣ 2 ^ (M - k) := pow_dvd_pow 2 htle
    have h2 : n = 2 ^ (M - k) - (2 ^ (M - k) - n) := by omega
    rw [h2]
    exact Nat.dvd_sub' h1 hdvdt
  have hRmodt : (2 ^ (M - k) - n) % 2 ^ t = 0 := by
    obtain ⟨u, hu⟩ := hdvdt
    rw [hu, Nat.mul_mod_right]
  have hdvdnk : 2 ^ (k + t) ∣ n * 2 ^ k := by
    obtain ⟨u, hu⟩ := hdvdn
    exact ⟨u, by rw [hu, Nat.pow_add]; ring⟩
  have hcond : ¬(s = 0 ∨ M < max MIN_ORDER (log2 ((s + 1) % 2 ^ 32))) := by
    rw [hord]
    push_neg
    exact ⟨hs, by omega⟩
  have hflkt : a.freelists (k + t) = [n * 2 ^ k] := by
    rw [hfl, canonFL_eq_single (by omega) (by omega)
      (by rw [(by omega : k + t - k = t)]; exact hF1)]
    rw [(by omega : k + t - k = t), hRmodt, Nat.add_zero]
  have hfind : findFrom M a.freelists
      (M + 1 - max MIN_ORDER (log2 ((s + 1) % 2 ^ 32)))
      (max MIN_ORDER (log2 ((s + 1) % 2 ^ 32))) = some (k + t, n * 2 ^ k) := by
    rw [hord]
    refine findFrom_found (by omega) (by omega) (by omega) hflkt ?_
    intro x hx1 hx2
    rw [hfl]
    apply canonFL_eq_nil
    rintro ⟨h1, h2, hbit⟩
    have h3 := hF2 (x - k) (by omega)
    omega
  constructor
  · simp only [alloc]
    rw [if_neg hcond, hfind]
  · simp only [alloc]
    rw [if_neg hcond, hfind]
    show splitLoop (n * 2 ^ k) (max MIN_ORDER (log2 ((s + 1) % 2 ^ 32))) (k + t)
      (setList a.freelists (k + t) (a.freelists (k + t)).tail) = canonFL M k (n + 1)
    rw [hord, hflkt]
    funext j
    rw [splitLoop_apply]
    simp only [List.tail_cons]
    by_cases hcase : k ≤ j ∧ j < k + t
    · rw [if_pos hcase]
      have hbase : setList a.freelists (k + t) [] j = [] := by
        simp only [setList, if_neg (show j ≠ k + t by omega)]
        rw [hfl]
        apply canonFL_eq_nil
        rintro ⟨h1, h2, hbit⟩
        have h3 := hF2 (j - k) (by omega)
        omega
      rw [hbase]
      have hbuddy : buddy_of (n * 2 ^ k) j = n * 2 ^ k + 2 ^ j := by
        simp only [buddy_of]
        exact buddy_add hcase.2 hdvdnk
      rw [hbuddy]
      have hdvdi1 : 2 ^ (j - k + 1) ∣ 2 ^ (M - k) - n :=
        dvd_of_low_bits_zero _ (fun i hilt => hF2 i (by omega))
      have hdvdi : 2 ^ (j - k) ∣ 2 ^ (M - k) - n :=
        dvd_trans (pow_dvd_pow 2 (by omega)) hdvdi1
      have hpm := pred_mod_pow hdvdi hRpos
      have hpm1 := pred_mod_pow hdvdi1 hRpos
      have hR1 : 2 ^ (M - k) - (n + 1) = 2 ^ (M - k) - n - 1 := by omega
      have hposjk : 0 < 2 ^ (j - k) := Nat.pos_pow_of_pos _ (by norm_num)
      have hpowjk : (2 : Nat) ^ (j - k + 1) = 2 ^ (j - k) * 2 := Nat.pow_succ 2 (j - k)
      have hbit' : (2 ^ (M - k) - n - 1) / 2 ^ (j - k) % 2 = 1 := by
        rw [div_pow_mod_two, hpm1.1]
        rw [show (2 : Nat) ^ (j - k + 1) - 1 = 2 ^ (j - k) * 1 + (2 ^ (j - k) - 1)
          by omega]
        rw [Nat.mul_add_div hposjk, Nat.div_eq_of_lt (by omega)]
      rw [canonFL_eq_single hcase.1 (by omega) (by rw [hR1]; exact hbit')]
      rw [hR1, hpm.1]
      have hentry : (n + 1 + (2 ^ (j - k) - 1)) * 2 ^ k = n * 2 ^ k + 2 ^ j := by
        rw [show n + 1 + (2 ^ (j - k) - 1) = n + 2 ^ (j - k) by omega, Nat.add_mul]
        congr 1
        rw [← Nat.pow_add]
        congr 1
        omega
      rw [hentry]
    · rw [if_neg hcase]
      by_cases hjt : j = k + t
      · subst hjt
        have hbase : setList a.freelists (k + t) [] (k + t) = [] := by
          simp [setList]
        rw [hbase, canonFL_eq_nil ?_]
        rintro ⟨h1, h2, hbit⟩
        have hpm := pred_mod_pow hdvdt hRpos
        rw [(by omega : k + t - k = t)] at hbit
        rw [show 2 ^ (M - k) - (n + 1) = 2 ^ (M - k) - n - 1 by omega, hpm.2] at hbit
        omega
      · have hbase : setList a.freelists (k + t) [] j = a.freelists j := by
          simp [setList, hjt]
        rw [hbase, hfl]
        rcases Nat.lt_or_ge j k with hjk | hjk
        · rw [canonFL_eq_nil (by rintro ⟨h1, _, _⟩; omega),
            canonFL_eq_nil (by rintro ⟨h1, _, _⟩; omega)]
        · rcases Nat.lt_or_ge M j with hjM | hjM
          · rw [canonFL_eq_nil (by rintro ⟨_, h2, _⟩; omega),
              canonFL_eq_nil (by rintro ⟨_, h2, _⟩; omega)]
          · have hjgt : k + t < j := by omega
            have hnd : (2 ^ (M - k) - n) % 2 ^ (j - k) ≠ 0 := by
              intro h0
              have hdvd1 : 2 ^ (t + 1) ∣ 2 ^ (M - k) - n :=
                dvd_trans (pow_dvd_pow 2 (by omega)) (Nat.dvd_of_mod_eq_zero h0)
              obtain ⟨u, hu⟩ := hdvd1
              have heven : (2 ^ (M - k) - n) / 2 ^ t = 2 * u := by
                rw [hu, Nat.pow_succ,
                  show (2 : Nat) ^ t * 2 * u = 2 ^ t * (2 * u) by ring,
                  Nat.mul_div_cancel_left _ htpos]
              rw [heven] at hF1
              omega
            have hsub := sub_one_mod_pow_of_not_dvd hnd
            have hR1 : 2 ^ (M - k) - (n + 1) = 2 ^ (M - k) - n - 1 := by omega
            by_cases hbit : (2 ^ (M - k) - n) / 2 ^ (j - k) % 2 = 1
            · rw [canonFL_eq_single hjk hjM hbit,
                canonFL_eq_single hjk hjM (by rw [hR1, hsub.2]; exact hbit)]
              rw [hR1, hsub.1]
              rw [show n + 1 + ((2 ^ (M - k) - n) % 2 ^ (j - k) - 1) =
                n + (2 ^ (M - k) - n) % 2 ^ (j - k) by omega]
            · have hc1 : ¬(k ≤ j ∧ j ≤ M ∧
                  (2 ^ (M - k) - n) / 2 ^ (j - k) % 2 = 1) := by
                rintro ⟨_, _, hb⟩
                exact hbit hb
              have hc2 : ¬(k ≤ j ∧ j ≤ M ∧
                  (2 ^ (M - k) - (n + 1)) / 2 ^ (j - k) % 2 = 1) := by
                rintro ⟨_, _, hb⟩
                rw [hR1, hsub.2] at hb
                exact hbit hb
              rw [canonFL_eq_nil hc1, canonFL_eq_nil hc2]

theorem alloc_canon {M k s n : Nat} (hkM : k ≤ M) (hs : s ≠ 0)
    (hord : max MIN_ORDER (log2 ((s + 1) % 2 ^ 32)) = k)
    (hn : n < 2 ^ (M - k)) (a : BuddyAllocator) (hfl : a.freelists = canonFL M k n) :
    (alloc M a s).1 = some (n * 2 ^ k) ∧
    (alloc M a s).2.freelists = canonFL M k (n + 1) := by
  have hRpos : 0 < 2 ^ (M - k) - n := by omega
  have hex := exists_bit_one hRpos
  refine alloc_canon_aux hkM hs hord hn (Nat.find_spec hex) ?_ a hfl
  intro i hi
  have h2 := Nat.find_min hex hi
  have h3 : (2 ^ (M - k) - n) / 2 ^ i % 2 < 2 := Nat.mod_lt _ (by norm_num)
  omega

theorem alloc_canon_exhausted {M k s : Nat} (_hord : max MIN_ORDER (log2 ((s + 1) % 2 ^ 32)) = k)
    (a : BuddyAllocator) (hfl : a.freelists = canonFL M k (2 ^ (M - k))) :
    alloc M a s = (none, a) := by
  have hempty : ∀ j, max MIN_ORDER (log2 ((s + 1) % 2 ^ 32)) ≤ j → a.freelists j = [] := by
    intro j _
    rw [hfl]
    apply canonFL_eq_nil
    rintro ⟨_, _, hbit⟩
    rw [Nat.sub_self] at hbit
    simp at hbit
  simp only [alloc]
  split
  · rfl
  · rw [findFrom_empty _ _ hempty]

theorem allocCount_canon {M k s : Nat} (hkM : k ≤ M) (hs : s ≠ 0)
    (hord : max MIN_ORDER (log2 ((s + 1) % 2 ^ 32)) = k) :
    ∀ fuel n a, a.freelists = canonFL M k n → n ≤ 2 ^ (M - k) →
      2 ^ (M - k) - n ≤ fuel → allocCount M s fuel a = 2 ^ (M - k) - n := by
  intro fuel
  induction fuel with
  | zero =>
    intro n a _ _ hfuel
    simp only [allocCount]
    omega
  | succ fuel ih =>
    intro n a hfl hn hfuel
    by_cases hlt : n < 2 ^ (M - k)
    · have hstep := alloc_canon hkM hs hord hlt a hfl
      rcases he : alloc M a s with ⟨fst, snd⟩
      rw [he] at hstep
      rw [show fst = some (n * 2 ^ k) from hstep.1] at he
      have hcount : allocCount M s fuel snd = 2 ^ (M - k) - (n + 1) :=
        ih (n + 1) snd hstep.2 (by omega) (by omega)
      simp only [allocCount, he]
      omega
    · have hn' : n = 2 ^ (M - k) := by omega
      subst hn'
      have hfail := alloc_canon_exhausted hord a hfl
      simp only [allocCount, hfail]
      omega

/-! ### After releasing everything, the single top-order block is free again -/

theorem aligned_fits {b j M : Nat} (hd : 2 ^ j ∣ b) (hb : b < 2 ^ M) (hj : j ≤ M) :
    b + 2 ^ j ≤ 2 ^ M := by
  obtain ⟨q, rfl⟩ := hd
  have hq : q < 2 ^ (M - j) := by
    by_contra h
    push_neg at h
    have h2 : 2 ^ M ≤ 2 ^ j * q := by
      calc 2 ^ M = 2 ^ j * 2 ^ (M - j) := by rw [← Nat.pow_add]; congr 1; omega
      _ ≤ 2 ^ j * q := Nat.mul_le_mul_left _ h
    omega
  calc 2 ^ j * q + 2 ^ j = 2 ^ j * (q + 1) := by ring
  _ ≤ 2 ^ j * 2 ^ (M - j) := Nat.mul_le_mul_left _ (by omega)
  _ = 2 ^ M := by rw [← Nat.pow_add]; congr 1; omega

theorem mod_sub_mod_le {x i j : Nat} (hij : i ≤ j) :
    x % 2 ^ j - x % 2 ^ i ≤ 2 ^ j - 2 ^ i := by
  have hposi : 0 < 2 ^ i := Nat.pos_pow_of_pos i (by norm_num)
  have hposj : 0 < 2 ^ j := Nat.pos_pow_of_pos j (by norm_num)
  have hdvd : (2 : Nat) ^ i ∣ 2 ^ j := pow_dvd_pow 2 hij
  have hmm : x % 2 ^ j % 2 ^ i = x % 2 ^ i := Nat.mod_mod_of_dvd x hdvd
  have hd : 2 ^ i ∣ x % 2 ^ j - x % 2 ^ i := by
    have h1 := Nat.div_add_mod (x % 2 ^ j) (2 ^ i)
    rw [hmm] at h1
    exact ⟨x % 2 ^ j / 2 ^ i, by omega⟩
  have hlt : x % 2 ^ j < 2 ^ j := Nat.mod_lt _ hposj
  obtain ⟨e, he⟩ := hd
  have hee : e < 2 ^ (j - i) := by
    by_contra hc
    push_neg at hc
    have h2 : 2 ^ j ≤ 2 ^ i * e := by
      calc 2 ^ j = 2 ^ i * 2 ^ (j - i) := by rw [← Nat.pow_add]; congr 1; omega
      _ ≤ 2 ^ i * e := Nat.mul_le_mul_left _ hc
    omega
  have h3 : 2 ^ i * e ≤ 2 ^ i * (2 ^ (j - i) - 1) := Nat.mul_le_mul_left _ (by omega)
  have h4 : 2 ^ i * (2 ^ (j - i) - 1) = 2 ^ j - 2 ^ i := by
    have hpp : (2 : Nat) ^ i * 2 ^ (j - i) = 2 ^ j := by
      rw [← Nat.pow_add]; congr 1; omega
    obtain ⟨c, hc⟩ : ∃ c, 2 ^ (j - i) = c + 1 :=
      ⟨2 ^ (j - i) - 1, by have := Nat.pos_pow_of_pos (j - i) (by norm_num : 0 < 2); omega⟩
    have hpp2 : 2 ^ i * c + 2 ^ i = 2 ^ j := by
      rw [← hpp, hc]; ring
    rw [hc]
    simp
    omega
  omega

theorem aligned_nest {i j w b' x : Nat} (hij : i ≤ j)
    (hwi : 2 ^ i ∣ w) (hbj : 2 ^ j ∣ b')
    (hxw1 : w ≤ x) (hxw2 : x < w + 2 ^ i) (hxb1 : b' ≤ x) (hxb2 : x < b' + 2 ^ j) :
    b' ≤ w ∧ w + 2 ^ i ≤ b' + 2 ^ j := by
  have hposi : 0 < 2 ^ i := Nat.pos_pow_of_pos i (by norm_num)
  have hposj : 0 < 2 ^ j := Nat.pos_pow_of_pos j (by norm_num)
  have hw : w = x - x % 2 ^ i := by
    obtain ⟨qw, rfl⟩ := hwi
    have hxe : x % 2 ^ i = x - 2 ^ i * qw := by
      rw [show x = 2 ^ i * qw + (x - 2 ^ i * qw) by omega, Nat.mul_add_mod,
        Nat.mod_eq_of_lt (by omega)]
      omega
    omega
  have hb : b' = x - x % 2 ^ j := by
    obtain ⟨qb, rfl⟩ := hbj
    have hxe : x % 2 ^ j = x - 2 ^ j * qb := by
      rw [show x = 2 ^ j * qb + (x - 2 ^ j * qb) by omega, Nat.mul_add_mod,
        Nat.mod_eq_of_lt (by omega)]
      omega
    omega
  have hmm : x % 2 ^ j % 2 ^ i = x % 2 ^ i := Nat.mod_mod_of_dvd x (pow_dvd_pow 2 hij)
  have hle : x % 2 ^ i ≤ x % 2 ^ j := by
    rw [← hmm]
    exact Nat.mod_le _ _
  have hsub := mod_sub_mod_le (x := x) hij
  have hxi : x % 2 ^ i < 2 ^ i := Nat.mod_lt _ hposi
  have hxj : x % 2 ^ j < 2 ^ j := Nat.mod_lt _ hposj
  have hxile : x % 2 ^ i ≤ x := Nat.mod_le _ _
  have hxjle : x % 2 ^ j ≤ x := Nat.mod_le _ _
  have hpowle : (2 : Nat) ^ i ≤ 2 ^ j := Nat.pow_le_pow_right (by norm_num) hij
  omega

/-- The set of buffer offsets covered by a list of blocks. -/
def blocksFinset (bs : List (Nat × Nat)) : Finset Nat :=
  bs.foldr (fun p acc => Finset.Ico p.1 (p.1 + 2 ^ p.2) ∪ acc) ∅

theorem mem_blocksFinset {bs : List (Nat × Nat)} {x : Nat} :
    x ∈ blocksFinset bs ↔ ∃ p ∈ bs, p.1 ≤ x ∧ x < p.1 + 2 ^ p.2 := by
  induction bs with
  | nil => simp [blocksFinset]
  | cons b tl ih =>
    simp only [blocksFinset, List.foldr_cons, Finset.mem_union, Finset.mem_Ico]
    rw [show tl.foldr (fun p acc => Finset.Ico p.1 (p.1 + 2 ^ p.2) ∪ acc) ∅ =
      blocksFinset tl from rfl, ih]
    constructor
    · rintro (h | ⟨p, hp, h⟩)
      · exact ⟨b, List.mem_cons_self b tl, h⟩
      · exact ⟨p, List.mem_cons_of_mem b hp, h⟩
    · rintro ⟨p, hp, h⟩
      rcases List.mem_cons.1 hp with rfl | hp'
      · exact Or.inl h
      · exact Or.inr ⟨p, hp', h⟩

theorem card_blocksFinset {bs : List (Nat × Nat)}
    (hdisj : List.Pairwise blockDisj bs) :
    (blocksFinset bs).card = sumSizes bs := by
  induction bs with
  | nil => simp [blocksFinset, sumSizes]
  | cons b tl ih =>
    obtain ⟨hhead, htail⟩ := List.pairwise_cons.1 hdisj
    have hdisjf : Disjoint (Finset.Ico b.1 (b.1 + 2 ^ b.2)) (blocksFinset tl) := by
      rw [Finset.disjoint_left]
      intro x hx hx2
      rw [Finset.mem_Ico] at hx
      obtain ⟨p, hp, hpx⟩ := mem_blocksFinset.1 hx2
      rcases hhead p hp with h | h
      · omega
      · omega
    show (Finset.Ico b.1 (b.1 + 2 ^ b.2) ∪ blocksFinset tl).card = _
    rw [Finset.card_union_of_disjoint hdisjf, Nat.card_Ico, ih htail, sumSizes_cons,
      Nat.add_sub_cancel_left]

theorem coverage {M : Nat} {bs : List (Nat × Nat)}
    (hdisj : List.Pairwise blockDisj bs)
    (hbound : ∀ p ∈ bs, p.1 + 2 ^ p.2 ≤ 2 ^ M)
    (hsum : sumSizes bs = 2 ^ M) {x : Nat} (hx : x < 2 ^ M) :
    ∃ p ∈ bs, p.1 ≤ x ∧ x < p.1 + 2 ^ p.2 := by
  have hsub : blocksFinset bs ⊆ Finset.range (2 ^ M) := by
    intro y hy
    obtain ⟨p, hp, hpy⟩ := mem_blocksFinset.1 hy
    rw [Finset.mem_range]
    have := hbound p hp
    omega
  have hcard : (Finset.range (2 ^ M)).card ≤ (blocksFinset bs).card := by
    rw [Finset.card_range, card_blocksFinset hdisj, hsum]
  have heq := Finset.eq_of_subset_of_card_le hsub hcard
  apply mem_blocksFinset.1
  rw [heq]
  exact Finset.mem_range.2 hx

/-- In a state with no live allocations that satisfies the free-list
invariant, offset 0 sits on the top free list: coalescing has fully restored
the order-`M` block. -/
theorem top_block_free {M : Nat} {fl : Nat → List Nat}
    (hinv : FLInv M fl []) : 0 ∈ fl M := by
  classical
  have hdisj : List.Pairwise blockDisj (freeBlocksList M fl) := by
    have h := hinv.disj
    rwa [List.append_nil] at h
  have hsum : sumSizes (freeBlocksList M fl) = 2 ^ M := by
    have h := hinv.tiles
    rwa [List.append_nil] at h
  have hbound : ∀ p ∈ freeBlocksList M fl, p.1 + 2 ^ p.2 ≤ 2 ^ M := by
    intro p hp
    obtain ⟨h1, h2⟩ := mem_freeBlocksList.1 hp
    exact (hinv.bounds p.2 p.1 h2).1
  have hMpos : 0 < 2 ^ M := Nat.pos_pow_of_pos M (by norm_num)
  obtain ⟨p0, hp0, hp0x⟩ := coverage hdisj hbound hsum hMpos
  have hex : ∃ k, ∃ b, (b, k) ∈ freeBlocksList M fl :=
    ⟨p0.2, p0.1, by simpa using hp0⟩
  obtain ⟨b, hb⟩ := Nat.find_spec hex
  have hmin : ∀ j, j < Nat.find hex → ∀ c, (c, j) ∉ freeBlocksList M fl :=
    fun j hj c hc => Nat.find_min hex hj ⟨c, hc⟩
  have hbM : Nat.find hex ≤ M := (mem_freeBlocksList.1 hb).1
  have hbfl : b ∈ fl (Nat.find hex) := (mem_freeBlocksList.1 hb).2
  have hbb := hinv.bounds (Nat.find hex) b hbfl
  have hbrange : b + 2 ^ Nat.find hex ≤ 2 ^ M := hbb.1
  have hbdvd : 2 ^ Nat.find hex ∣ b := hbb.2
  rcases Nat.lt_or_ge (Nat.find hex) M with hkM | hkM
  · exfalso
    have hkpos : 0 < 2 ^ Nat.find hex := Nat.pos_pow_of_pos _ (by norm_num)
    have hmerge := buddy_merge hbdvd
    have h2p : (2 : Nat) ^ (Nat.find hex + 1) =
        2 ^ Nat.find hex + 2 ^ Nat.find hex := by ring
    have hxlt : b ^^^ 2 ^ Nat.find hex < 2 ^ M := by
      rcases xor_two_pow_cases hbdvd with ⟨hd, hx⟩ | ⟨hle, hd, hx⟩
      · rw [hx]
        have hfits := aligned_fits hd (by omega) (show Nat.find hex + 1 ≤ M by omega)
        omega
      · rw [hx]
        exact lt_of_le_of_lt (Nat.sub_le _ _) (by omega)
    obtain ⟨p', hp', hpx1, hpx2⟩ := coverage hdisj hbound hsum hxlt
    have hpM : p'.2 ≤ M := (mem_freeBlocksList.1 hp').1
    have hpfl : p'.1 ∈ fl p'.2 := (mem_freeBlocksList.1 hp').2
    have hpb := hinv.bounds p'.2 p'.1 hpfl
    have hpdvd : 2 ^ p'.2 ∣ p'.1 := hpb.2
    have hxdvd : 2 ^ Nat.find hex ∣ b ^^^ 2 ^ Nat.find hex := by
      rcases xor_two_pow_cases hbdvd with ⟨hd, hx⟩ | ⟨hle, hd, hx⟩
      · rw [hx]
        exact Nat.dvd_add hbdvd dvd_rfl
      · rw [hx]
        exact Nat.dvd_sub' hbdvd dvd_rfl
    have hpge : Nat.find hex ≤ p'.2 := by
      by_contra hc
      push_neg at hc
      refine hmin p'.2 hc p'.1 ?_
      simpa using hp'
    rcases Nat.eq_or_lt_of_le hpge with hpe | hplt
    · have hpeq : p'.1 = b ^^^ 2 ^ Nat.find hex := by
        obtain ⟨qa, hqa⟩ := hpdvd
        obtain ⟨qb, hqb⟩ := hxdvd
        rw [← hpe] at hqa hpx2
        rw [hqa, hqb] at hpx1 hpx2
        rw [hqa, hqb]
        have hq1 : qa ≤ qb := Nat.le_of_mul_le_mul_left hpx1 hkpos
        have hq2 : qb < qa + 1 := by
          refine Nat.lt_of_mul_lt_mul_left (a := 2 ^ Nat.find hex) ?_
          rw [Nat.mul_add, Nat.mul_one]
          exact hpx2
        have : qa = qb := by omega
        rw [this]
      have hnp := hinv.noPair (Nat.find hex) b hbfl
      rw [← hpe] at hpfl
      rw [hpeq] at hpfl
      exact hnp hpfl
    · have hwdvd := hmerge.1
      have hwmax := hmerge.2
      have hbin1 : min b (b ^^^ 2 ^ Nat.find hex) ≤ b ^^^ 2 ^ Nat.find hex :=
        min_le_right _ _
      have hbin2 : b ^^^ 2 ^ Nat.find hex <
          min b (b ^^^ 2 ^ Nat.find hex) + 2 ^ (Nat.find hex + 1) := by
        have h1 : b ^^^ 2 ^ Nat.find hex ≤ max b (b ^^^ 2 ^ Nat.find hex) :=
          le_max_right _ _
        omega
      obtain ⟨hnest1, hnest2⟩ := aligned_nest (show Nat.find hex + 1 ≤ p'.2 by omega)
        hwdvd hpdvd hbin1 hbin2 hpx1 hpx2
      have hbinp1 : p'.1 ≤ b := by
        have hm1 : min b (b ^^^ 2 ^ Nat.find hex) ≤ b := min_le_left _ _
        omega
      have hbinp2 : b < p'.1 + 2 ^ p'.2 := by
        have h1 : b ≤ max b (b ^^^ 2 ^ Nat.find hex) := le_max_left _ _
        omega
      have hne : ((b, Nat.find hex) : Nat × Nat) ≠ p' := by
        intro he
        have h2 : Nat.find hex = p'.2 := by rw [← he]
        omega
      have hdd := hdisj.forall blockDisj_symmetric hb hp' hne
      have hdd' : b + 2 ^ Nat.find hex ≤ p'.1 ∨ p'.1 + 2 ^ p'.2 ≤ b := hdd
      omega
  · have hkeq : Nat.find hex = M := by omega
    rw [hkeq] at hbfl hbrange
    have hb0 : b = 0 := by
      have := Nat.pos_pow_of_pos M (show 0 < 2 by norm_num)
      omega
    rw [← hb0]
    exact hbfl

/-- Eta-expansion helper: a successful first component of `alloc` yields the
pair equation needed by `Reach.allocStep`. -/
theorem alloc_eta {M s p : Nat} {a : BuddyAllocator} (h : (alloc M a s).1 = some p) :
    alloc M a s = (some p, (alloc M a s).2) := by
  rw [← h]

/-! ## The claims

Each claim of the specification is settled below.  Pointers are represented
by their offsets from the buffer base, so `base` itself is offset `0`;
`base < p` reads `0 < p`, `base + (1 << MAX_POWER) - 1` reads `2 ^ M - 1`. -/

/-- Claim C1, counterexample to the claim as stated: the capacity law is
quantified over every size `s < 1 << MAX_POWER`, but for `s = 0` a fresh
allocator (here `MAX_POWER = 14`) satisfies zero `allocate(0)` calls, not
`1 << (14 - max(MIN_ORDER, ceil_log2(1))) = 1024`, because `alloc`
rejects `size == 0`. -/
theorem capacity_counterexample :
    ¬ (∀ s, s < 2 ^ 14 →
      allocCount 14 s (2 ^ 14) (fresh 14) =
        2 ^ (14 - max MIN_ORDER (log2 (s + 1)))) := by
  intro hclaim
  exact absurd (hclaim 0 (by decide)) (by decide)

/-- Claim C1 (amended, `1 ≤ s`): for every fixed allocation size `s` with
`1 ≤ s < 1 << MAX_POWER`, repeatedly calling `allocate(s)` on a freshly
constructed allocator until it returns null yields exactly
`1 << (MAX_ORDER - max(MIN_ORDER, ceil_log2(s + 1)))` successful
allocations.  `fuel` bounds the number of calls made; any fuel at least the
expected count returns exactly that count, the later calls failing. -/
theorem capacity_amended (M s : Nat) (hmin : MIN_ORDER ≤ M) (hM31 : M ≤ 31)
    (hs : 1 ≤ s) (hsM : s < 2 ^ M) (fuel : Nat)
    (hfuel : 2 ^ (M - max MIN_ORDER (log2 (s + 1))) ≤ fuel) :
    allocCount M s fuel (fresh M) = 2 ^ (M - max MIN_ORDER (log2 (s + 1))) := by
  have h31 : (2 : Nat) ^ M ≤ 2 ^ 31 := Nat.pow_le_pow_right (by norm_num) hM31
  have h3132 : (2 : Nat) ^ 31 < 2 ^ 32 := by norm_num
  have hmod : (s + 1) % 2 ^ 32 = s + 1 := Nat.mod_eq_of_lt (by omega)
  have hkM : max MIN_ORDER (log2 (s + 1)) ≤ M :=
    max_le hmin (log2_le (by omega))
  have hord : max MIN_ORDER (log2 ((s + 1) % 2 ^ 32)) =
      max MIN_ORDER (log2 (s + 1)) := by rw [hmod]
  have hrun := allocCount_canon hkM (by omega) hord fuel 0 (fresh M)
    (fresh_canon hkM) (Nat.zero_le _) (le_trans (Nat.sub_le _ _) hfuel)
  simpa using hrun

/-- Witness for the amended capacity law at `MAX_POWER = 4`, `s = 1`:
a single allocation of order `MIN_ORDER = 4` exhausts the 16-byte pool. -/
theorem capacity_amended_witness :
    MIN_ORDER ≤ 4 ∧ (4 : Nat) ≤ 31 ∧ (1 : Nat) ≤ 1 ∧ 1 < 2 ^ 4 ∧
    2 ^ (4 - max MIN_ORDER (log2 (1 + 1))) ≤ 1 ∧
    allocCount 4 1 1 (fresh 4) = 2 ^ (4 - max MIN_ORDER (log2 (1 + 1))) :=
  ⟨by decide, by decide, by decide, by decide, by decide,
    capacity_amended 4 1 (by decide) (by decide) (by decide) (by decide) 1 (by decide)⟩

/-- Claim C2 (code bug): `allocate` is required to return null whenever
`size + 1` exceeds `1 << MAX_ORDER`, but for `size = 2^32 - 1` (a legal
`uint32_t`) the computation `size + 1` wraps to `0`, `log2(0) = 0`, the
order becomes `MIN_ORDER`, and the call SUCCEEDS, handing out a 16-byte
block for a 4 GiB request (`MAX_POWER = 14`, fresh allocator shown). -/
theorem alloc_u32_wrap_bug :
    (alloc 14 (fresh 14) (2 ^ 32 - 1)).1 = some 0 ∧ 2 ^ 14 < 2 ^ 32 - 1 + 1 :=
  ⟨by decide, by decide⟩

/-- Claim C3 (confirmed): from any state reachable from a fresh allocator,
once every outstanding allocation has been released (`live = []`),
`allocate((1 << MAX_ORDER) - 1)` succeeds — coalescing has restored the
single top-order block at offset 0. -/
theorem roundTrip_recovery {M : Nat} {a : BuddyAllocator}
    (hM : MIN_ORDER ≤ M) (hM31 : M ≤ 31)
    (h : Reach M a []) : (alloc M a (2 ^ M - 1)).1 = some 0 := by
  have hinv := reach_inv hM h
  have hfli : FLInv M a.freelists [] := hinv.fli
  have h0 : 0 ∈ a.freelists M := top_block_free hfli
  have hMpos : 0 < 2 ^ M := Nat.pos_pow_of_pos M (by norm_num)
  have hms : 2 ^ M - 1 + 1 = 2 ^ M := by omega
  have hmod : (2 ^ M - 1 + 1) % 2 ^ 32 = 2 ^ M := by
    rw [hms]
    exact Nat.mod_eq_of_lt (Nat.pow_lt_pow_right (by norm_num) (by omega))
  have hord : max MIN_ORDER (log2 ((2 ^ M - 1 + 1) % 2 ^ 32)) = M := by
    rw [hmod, log2_two_pow (by omega)]
    exact max_eq_right hM
  have h16 : (2 : Nat) ^ MIN_ORDER = 16 := by decide
  have hsz : 2 ^ M - 1 ≠ 0 := by
    have hle : (2 : Nat) ^ MIN_ORDER ≤ 2 ^ M := Nat.pow_le_pow_right (by norm_num) hM
    omega
  have hcond : ¬(2 ^ M - 1 = 0 ∨ M < max MIN_ORDER (log2 ((2 ^ M - 1 + 1) % 2 ^ 32))) := by
    rw [hord]
    push_neg
    exact ⟨hsz, le_rfl⟩
  cases hflM : a.freelists M with
  | nil => rw [hflM] at h0; cases h0
  | cons c tl =>
    have hc0 : c = 0 := by
      have hcm : c ∈ a.freelists M := by rw [hflM]; exact List.mem_cons_self c tl
      have := (hfli.bounds M c hcm).1
      omega
    have hfind : findFrom M a.freelists
        (M + 1 - max MIN_ORDER (log2 ((2 ^ M - 1 + 1) % 2 ^ 32)))
        (max MIN_ORDER (log2 ((2 ^ M - 1 + 1) % 2 ^ 32))) = some (M, c) := by
      rw [hord]
      exact findFrom_found le_rfl le_rfl (by omega) hflM
        (fun x hx1 hx2 => absurd (lt_of_le_of_lt hx1 hx2) (lt_irrefl M))
    simp only [alloc]
    rw [if_neg hcond, hfind, hc0]

/-- Witness for the round-trip recovery at `MAX_POWER = 14` (fresh state). -/
theorem roundTrip_recovery_witness :
    MIN_ORDER ≤ 14 ∧ (14 : Nat) ≤ 31 ∧ (alloc 14 (fresh 14) (2 ^ 14 - 1)).1 = some 0 :=
  ⟨by decide, by decide, roundTrip_recovery (by decide) (by decide) Reach.init⟩

/-- Claim C4, counterexample to the claim as stated: the first allocation
from a fresh allocator returns the buffer base itself (offset `0`), so
`base < p` fails; the spec's strict lower bound confused the buffer base
with the address of the allocator object (which the test compares against). -/
theorem containment_counterexample :
    ¬ (∀ (M : Nat) (a : BuddyAllocator) (live : List (Nat × Nat)) (s p : Nat)
        (a' : BuddyAllocator), Reach M a live → alloc M a s = (some p, a') →
        0 < p) := by
  intro hclaim
  exact absurd
    (hclaim 14 (fresh 14) [] 1 0 ((alloc 14 (fresh 14) 1).2) Reach.init
      (alloc_eta (by decide)))
    (by decide)

/-- Claim C4 (amended, `base ≤ p`): every pointer returned by a successful
`allocate` in a reachable state lies within the managed buffer:
`base ≤ p ≤ base + (1 << MAX_POWER) - 1`, i.e. the offset is below `2 ^ M`
(the lower bound `0 ≤ p` is inherent to offsets). -/
theorem containment_amended {M : Nat} {a : BuddyAllocator} {live : List (Nat × Nat)}
    {s p : Nat} {a' : BuddyAllocator} (hM : MIN_ORDER ≤ M) (h : Reach M a live)
    (halloc : alloc M a s = (some p, a')) : p < 2 ^ M := by
  have hinv := reach_inv hM h
  obtain ⟨_, _, index, tl, _, hM2, hfl, _, _⟩ := alloc_some halloc
  have hbb := hinv.fli.bounds index p (by rw [hfl]; exact List.mem_cons_self p tl)
  have hpos : 0 < 2 ^ index := Nat.pos_pow_of_pos _ (by norm_num)
  omega

/-- Witness for the amended containment: the second allocation of a fresh
`MAX_POWER = 14` allocator returns offset 16, inside the buffer. -/
theorem containment_amended_witness : MIN_ORDER ≤ 14 ∧ (16 : Nat) < 2 ^ 14 := by
  have hreach : Reach 14 ((alloc 14 (fresh 14) 1).2) [(0, 1)] :=
    Reach.allocStep Reach.init (by decide) (alloc_eta (by decide))
  exact ⟨by decide,
    containment_amended (by decide) hreach (alloc_eta (s := 15) (by decide))⟩

/-- Claim C5, counterexample to the claim as stated: for `s = 2^32 - 1`
(`MAX_POWER = 14`, fresh allocator) the successful `allocate(s)` records
order `4` in the byte before the returned pointer, but
`1 << 4 = 16 ≠ max(s + 1, 1 << MIN_ORDER)` rounded up to a power of two
(`= 2^32`): the `uint32_t` wraparound of `size + 1` breaks the order-byte
law exactly where it breaks the failure conditions. -/
theorem order_byte_counterexample :
    ¬ (∀ (M : Nat) (a : BuddyAllocator) (s p : Nat) (a' : BuddyAllocator),
        alloc M a s = (some p, a') →
        2 ^ a'.orders p = 2 ^ log2 (max (s + 1) (2 ^ MIN_ORDER))) := by
  intro hclaim
  exact absurd
    (hclaim 14 (fresh 14) (2 ^ 32 - 1) 0 ((alloc 14 (fresh 14) (2 ^ 32 - 1)).2)
      (alloc_eta (by decide)))
    (by decide)

/-- Claim C5 (amended, `s + 1 < 2^32`): for every pointer `p` returned by a
successful `allocate(s)` whose `size + 1` does not wrap, the byte stored at
`p - 1` is `max(MIN_ORDER, ceil_log2(s + 1))`, lies in
`[MIN_ORDER, MAX_ORDER]`, and `1 << order` is `max(s + 1, 1 << MIN_ORDER)`
rounded up to a power of two.  This holds in every state, reachable or not. -/
theorem order_byte_amended {M : Nat} {a : BuddyAllocator} {s p : Nat}
    {a' : BuddyAllocator} (hwrap : s + 1 < 2 ^ 32)
    (halloc : alloc M a s = (some p, a')) :
    a'.orders p = max MIN_ORDER (log2 (s + 1)) ∧
    MIN_ORDER ≤ a'.orders p ∧ a'.orders p ≤ M ∧
    2 ^ a'.orders p = 2 ^ log2 (max (s + 1) (2 ^ MIN_ORDER)) := by
  obtain ⟨hs1, hordM, index, tl, hle, hM2, hfl, hempty, ha'⟩ := alloc_some halloc
  have hmod : (s + 1) % 2 ^ 32 = s + 1 := Nat.mod_eq_of_lt hwrap
  have hop : a'.orders p = max MIN_ORDER (log2 ((s + 1) % 2 ^ 32)) := by
    rw [ha']
    simp
  rw [hmod] at hop hordM
  have h33 : s + 1 ≤ 2 ^ 33 := by
    have h1 : (2 : Nat) ^ 32 ≤ 2 ^ 33 := by norm_num
    omega
  have h16 : (2 : Nat) ^ MIN_ORDER = 16 := by decide
  have hmax33 : max (s + 1) (2 ^ MIN_ORDER) ≤ 2 ^ 33 := by
    have h1 : (16 : Nat) ≤ 2 ^ 33 := by norm_num
    omega
  have hlog : log2 (max (s + 1) (2 ^ MIN_ORDER)) = max (log2 (s + 1)) MIN_ORDER := by
    apply le_antisymm
    · apply log2_le
      apply max_le
      · exact le_trans (le_two_pow_log2 h33)
          (Nat.pow_le_pow_right (by norm_num) (le_max_left _ _))
      · exact Nat.pow_le_pow_right (by norm_num) (le_max_right _ _)
    · apply max_le
      · exact log2_le
          (le_trans (le_max_left (s + 1) (2 ^ MIN_ORDER)) (le_two_pow_log2 hmax33))
      · exact (Nat.pow_le_pow_iff_right (by norm_num : 1 < 2)).1
          (le_trans (le_max_right (s + 1) (2 ^ MIN_ORDER)) (le_two_pow_log2 hmax33))
  refine ⟨hop, ?_, ?_, ?_⟩
  · rw [hop]; exact le_max_left _ _
  · rw [hop]; exact hordM
  · rw [hop, hlog, max_comm]

/-- Witness for the amended order-byte law: `allocate(1)` on a fresh
`MAX_POWER = 14` allocator records order `max(MIN_ORDER, ceil_log2 2) = 4`. -/
theorem order_byte_amended_witness :
    1 + 1 < 2 ^ 32 ∧
    ((alloc 14 (fresh 14) 1).2.orders 0 = max MIN_ORDER (log2 (1 + 1)) ∧
      MIN_ORDER ≤ (alloc 14 (fresh 14) 1).2.orders 0 ∧
      (alloc 14 (fresh 14) 1).2.orders 0 ≤ 14 ∧
      2 ^ (alloc 14 (fresh 14) 1).2.orders 0 =
        2 ^ log2 (max (1 + 1) (2 ^ MIN_ORDER))) :=
  ⟨by decide, order_byte_amended (by decide) (alloc_eta (by decide))⟩

/-- Claim C6 (confirmed): every pointer returned by a successful `allocate`
in a reachable state is aligned to `1 << order(p)` bytes relative to the
buffer base, where `order(p)` is the order recorded at `p - 1`: the block's
offset is a multiple of its block size. -/
theorem alloc_aligned {M : Nat} {a : BuddyAllocator} {live : List (Nat × Nat)}
    {s p : Nat} {a' : BuddyAllocator} (hM : MIN_ORDER ≤ M) (h : Reach M a live)
    (halloc : alloc M a s = (some p, a')) : 2 ^ a'.orders p ∣ p := by
  have hinv := reach_inv hM h
  obtain ⟨_, _, index, tl, hle, hM2, hfl, _, ha'⟩ := alloc_some halloc
  have hbb := hinv.fli.bounds index p (by rw [hfl]; exact List.mem_cons_self p tl)
  have hop : a'.orders p = max MIN_ORDER (log2 ((s + 1) % 2 ^ 32)) := by
    rw [ha']
    simp
  rw [hop]
  exact dvd_trans (pow_dvd_pow 2 hle) hbb.2

/-- Witness for alignment: the second allocation of a fresh `MAX_POWER = 14`
allocator returns offset 16, aligned to its recorded order. -/
theorem alloc_aligned_witness :
    MIN_ORDER ≤ 14 ∧
    2 ^ (alloc 14 ((alloc 14 (fresh 14) 1).2) 15).2.orders 16 ∣ 16 := by
  have hreach : Reach 14 ((alloc 14 (fresh 14) 1).2) [(0, 1)] :=
    Reach.allocStep Reach.init (by decide) (alloc_eta (by decide))
  exact ⟨by decide, alloc_aligned (by decide) hreach (alloc_eta (by decide))⟩

/-- Claim C7 (confirmed): in every state reachable from construction by
`alloc` and `free` calls on valid pointers, no free block and its
same-order buddy are simultaneously on the free lists. -/
theorem buddy_pair_invariant {M : Nat} {a : BuddyAllocator}
    {live : List (Nat × Nat)} (hM : MIN_ORDER ≤ M) (h : Reach M a live) :
    ∀ k b, b ∈ a.freelists k → buddy_of b k ∉ a.freelists k :=
  fun k b hb => (reach_inv hM h).fli.noPair k b hb

/-- Witness for the buddy-pair invariant at the fresh state: the top block's
buddy is not free. -/
theorem buddy_pair_invariant_witness :
    buddy_of 0 14 ∉ (fresh 14).freelists 14 :=
  buddy_pair_invariant (by decide) Reach.init 14 0 (by decide)

/-- Claim C8 (confirmed): releasing a valid pointer (one recorded in the
ghost list of outstanding allocations) terminates: the coalescing loop
completes within `MAX_ORDER - order + 1` iterations (fuel
`M + 1 - order` suffices, so at most `M - order` coalescing steps happen,
the search at the top order necessarily failing), and `free` returns. -/
theorem release_terminates {M : Nat} {a : BuddyAllocator}
    {live : List (Nat × Nat)} {p s : Nat} (hM : MIN_ORDER ≤ M)
    (h : Reach M a live) (hmem : (p, s) ∈ live) :
    (∃ fl', freeLoop p (a.orders p) a.freelists (M + 1 - a.orders p) = some fl') ∧
    (∃ a', free M a (some p) = some a') := by
  have hinv := reach_inv hM h
  obtain ⟨l₁, l₂, hsplit⟩ := List.append_of_mem hmem
  subst hsplit
  have hlb := hinv.liveBounds (p, s)
    (List.mem_append_right l₁ (List.mem_cons_self _ _))
  have h1 : MIN_ORDER ≤ a.orders p := hlb.1
  have h2 : a.orders p ≤ M := hlb.2.1
  have h3 : p + 2 ^ a.orders p ≤ 2 ^ M := hlb.2.2.1
  have h4 : 2 ^ a.orders p ∣ p := hlb.2.2.2.1
  have hfli := live_pending_fli hinv
  constructor
  · obtain ⟨fl', hsome, _⟩ := freeLoop_ok (M + 1 - a.orders p) p (a.orders p)
      a.freelists h1 h2 h3 h4 hfli le_rfl
    exact ⟨fl', hsome⟩
  · obtain ⟨fl', hsome, _⟩ := freeLoop_ok (M + 2 - a.orders p) p (a.orders p)
      a.freelists h1 h2 h3 h4 hfli (by omega)
    refine ⟨{ a with freelists := fl' }, ?_⟩
    simp only [free]
    rw [hsome]

/-- Witness for release termination: freeing the single live block of a
`MAX_POWER = 14` allocator after one allocation. -/
theorem release_terminates_witness :
    (∃ fl', freeLoop 0 ((alloc 14 (fresh 14) 1).2.orders 0)
      (alloc 14 (fresh 14) 1).2.freelists
      (14 + 1 - (alloc 14 (fresh 14) 1).2.orders 0) = some fl') ∧
    (∃ a', free 14 ((alloc 14 (fresh 14) 1).2) (some 0) = some a') :=
  release_terminates (by decide)
    (Reach.allocStep Reach.init (by decide) (alloc_eta (s := 1) (p := 0) (by decide)))
    (List.mem_singleton.2 rfl)

/-- Claim C9, counterexample to the claim as stated: on a fresh
`MAX_POWER = 14` allocator, `allocate(1)` returns the pointer at offset `0`
from the buffer base (the split keeps the lower half, whose first byte is
the base itself), not offset `1` as the spec asserts. -/
theorem split_tiebreak_counterexample :
    ¬ ((alloc 14 (fresh 14) 1).1 = some 1) := by decide

/-- Claim C9 (amended, first offset `0`): on a fresh allocator
(`MIN_ORDER < MAX_POWER`), `allocate(1)` (order `MIN_ORDER`) returns
the pointer at offset `0`, and the immediately following
`allocate((1 << MIN_ORDER) - 1)` returns the pointer at offset
`1 << MIN_ORDER`: splitting keeps the lower-address half for the caller and
pushes the upper half onto the free list. -/
theorem split_tiebreak_amended {M : Nat} (hM : MIN_ORDER < M) :
    (alloc M (fresh M) 1).1 = some 0 ∧
    (alloc M ((alloc M (fresh M) 1).2) (2 ^ MIN_ORDER - 1)).1 =
      some (2 ^ MIN_ORDER) := by
  have hord1 : max MIN_ORDER (log2 ((1 + 1) % 2 ^ 32)) = MIN_ORDER := by decide
  have hpos : 0 < 2 ^ (M - MIN_ORDER) := Nat.pos_pow_of_pos _ (by norm_num)
  have hstep1 := alloc_canon (by omega) (by omega) hord1 hpos (fresh M)
    (fresh_canon (by omega))
  constructor
  · rw [hstep1.1]
    simp
  · have hord2 : max MIN_ORDER (log2 ((2 ^ MIN_ORDER - 1 + 1) % 2 ^ 32)) =
        MIN_ORDER := by decide
    have hn2 : 1 < 2 ^ (M - MIN_ORDER) := by
      have h1 : (2 : Nat) ^ 1 ≤ 2 ^ (M - MIN_ORDER) :=
        Nat.pow_le_pow_right (by norm_num) (by omega)
      omega
    have hstep2 := alloc_canon (by omega) (by decide) hord2 hn2
      ((alloc M (fresh M) 1).2) hstep1.2
    rw [hstep2.1]
    simp

/-- Witness for the amended split tie-break at `MAX_POWER = 14`. -/
theorem split_tiebreak_amended_witness :
    MIN_ORDER < 14 ∧
    ((alloc 14 (fresh 14) 1).1 = some 0 ∧
      (alloc 14 ((alloc 14 (fresh 14) 1).2) (2 ^ MIN_ORDER - 1)).1 =
        some (2 ^ MIN_ORDER)) :=
  ⟨by decide, split_tiebreak_amended (by decide)⟩

/-- Claim C10, counterexample to the claim as stated: after the wrapping
`allocate(2^32 - 1)` call of `alloc_u32_wrap_bug`, the live block at offset
`0` has recorded order 4 but request size `2^32 - 1`; the next `allocate(1)`
returns offset `16` and stores its order byte at offset `15 = 16 - 1`,
which lies inside that live allocation's claimed `s` payload bytes
(`0 + 1 ≤ 16 ∧ 16 ≤ 0 + (2^32 - 1)` says precisely that byte `16 - 1`
falls in `[0, 0 + s)`). -/
theorem frame_counterexample :
    Reach 14 ((alloc 14 (fresh 14) (2 ^ 32 - 1)).2) [(0, 2 ^ 32 - 1)] ∧
    (alloc 14 ((alloc 14 (fresh 14) (2 ^ 32 - 1)).2) 1).1 = some 16 ∧
    0 + 1 ≤ 16 ∧ 16 ≤ 0 + (2 ^ 32 - 1) :=
  ⟨Reach.allocStep Reach.init (by decide) (alloc_eta (by decide)),
    by decide, by decide, by decide⟩

/-- Claim C10 (amended: each live block's request size must satisfy
`s + 1 ≤ 1 << order`, which holds whenever `size + 1` did not wrap in
`alloc`): in every reachable state, (1) the first `sizeof(void*)` bytes of
every free block — the bytes `free`-list link writes touch — avoid every
live allocation's payload `[q, q + s)` and order byte `q - 1`, and (2) the
order byte `p - 1` written by a successful `allocate` avoids every
previously-live allocation's payload and order byte. -/
theorem frame_amended {M : Nat} {a : BuddyAllocator} {live : List (Nat × Nat)}
    (hM : MIN_ORDER ≤ M) (h : Reach M a live) :
    (∀ k b, b ∈ a.freelists k → ∀ q ∈ live, q.2 + 1 ≤ 2 ^ a.orders q.1 →
      ∀ x, b ≤ x → x < b + PTR_SIZE →
        ¬(q.1 ≤ x ∧ x < q.1 + q.2) ∧ x + 1 ≠ q.1) ∧
    (∀ s p a', alloc M a s = (some p, a') → ∀ q ∈ live,
      q.2 + 1 ≤ 2 ^ a.orders q.1 →
      p ≠ q.1 ∧ ¬(q.1 + 1 ≤ p ∧ p ≤ q.1 + q.2)) := by
  have hinv := reach_inv hM h
  have hptr : PTR_SIZE = 8 := rfl
  have h16 : (2 : Nat) ^ MIN_ORDER = 16 := by decide
  constructor
  · intro k b hb q hq hsz x hx1 hx2
    have hkr := hinv.fli.range k (List.ne_nil_of_mem hb)
    have hdisj : blockDisj (b, k) (q.1, a.orders q.1) :=
      (List.pairwise_append.1 hinv.fli.disj).2.2 (b, k)
        (mem_freeBlocksList.2 ⟨hkr.2, hb⟩)
        (q.1, a.orders q.1) (List.mem_map.2 ⟨q, hq, rfl⟩)
    have hdisj' : b + 2 ^ k ≤ q.1 ∨ q.1 + 2 ^ a.orders q.1 ≤ b := hdisj
    have hkpow : (16 : Nat) ≤ 2 ^ k := by
      rw [← h16]
      exact Nat.pow_le_pow_right (by norm_num) hkr.1
    have hqkpos : 0 < 2 ^ a.orders q.1 := Nat.pos_pow_of_pos _ (by norm_num)
    constructor
    · rintro ⟨hc1, hc2⟩
      omega
    · intro hc
      omega
  · intro s p a' halloc q hq hsz
    obtain ⟨_, _, index, tl, _, hM2, hfl, _, _⟩ := alloc_some halloc
    have hdisj : blockDisj (p, index) (q.1, a.orders q.1) :=
      (List.pairwise_append.1 hinv.fli.disj).2.2 (p, index)
        (mem_freeBlocksList.2 ⟨hM2, by rw [hfl]; exact List.mem_cons_self p tl⟩)
        (q.1, a.orders q.1) (List.mem_map.2 ⟨q, hq, rfl⟩)
    have hdisj' : p + 2 ^ index ≤ q.1 ∨ q.1 + 2 ^ a.orders q.1 ≤ p := hdisj
    have hppos : 0 < 2 ^ index := Nat.pos_pow_of_pos _ (by norm_num)
    have hqkpos : 0 < 2 ^ a.orders q.1 := Nat.pos_pow_of_pos _ (by norm_num)
    constructor
    · intro hpq
      omega
    · rintro ⟨hc1, hc2⟩
      omega

/-- Witness for the amended frame property at the state after one
`allocate(1)` on a fresh `MAX_POWER = 14` allocator. -/
theorem frame_amended_witness :
    (∀ k b, b ∈ (alloc 14 (fresh 14) 1).2.freelists k →
      ∀ q ∈ [((0 : Nat), (1 : Nat))],
      q.2 + 1 ≤ 2 ^ (alloc 14 (fresh 14) 1).2.orders q.1 →
      ∀ x, b ≤ x → x < b + PTR_SIZE →
        ¬(q.1 ≤ x ∧ x < q.1 + q.2) ∧ x + 1 ≠ q.1) ∧
    (∀ s p a', alloc 14 ((alloc 14 (fresh 14) 1).2) s = (some p, a') →
      ∀ q ∈ [((0 : Nat), (1 : Nat))],
      q.2 + 1 ≤ 2 ^ (alloc 14 (fresh 14) 1).2.orders q.1 →
      p ≠ q.1 ∧ ¬(q.1 + 1 ≤ p ∧ p ≤ q.1 + q.2)) :=
  frame_amended (by decide) (Reach.allocStep Reach.init (by decide) (alloc_eta (by decide)))

end ub
